import Mathlib

/-!
Shallow embedding of the struqture operator-algebra core (product types,
operator containers, the System / Open System layers, the schema-2 import)
together with proofs settling the specification claims.

The repository excerpt ships the integration tests and the Python binding
wrappers; the library implementation itself (product canonicalization,
container operations, system layer) is not part of the excerpt, so those
definitions are modelled from the specification, with the in-repo tests
pinning the concrete behaviour (error names, display forms, truncation
outcomes).
-/

namespace Struqture

/-- Modelled from the spec: the opaque coefficient value type
(qoqo_calculator CalculatorFloat, not implemented in this repository) —
either a literal number or a named symbolic expression. Literals are
modelled as rationals. -/
inductive CalculatorFloat where
  | float : ℚ → CalculatorFloat
  | symb : String → CalculatorFloat
deriving DecidableEq, Repr

namespace CalculatorFloat

/-- Modelled from the spec: addition of coefficients; adding anything
symbolic stays symbolic. -/
def add : CalculatorFloat → CalculatorFloat → CalculatorFloat
  | float a, float b => float (a + b)
  | float a, symb s => symb (toString a ++ " + " ++ s)
  | symb s, float b => symb (s ++ " + " ++ toString b)
  | symb s, symb t => symb (s ++ " + " ++ t)

/-- Modelled from the spec: "is this exactly the real zero?" — true only
for the literal zero, never for a symbolic expression. -/
def isZero : CalculatorFloat → Bool
  | float a => a = 0
  | symb _ => false

/-- Modelled from the spec: a coefficient is symbolic when it is not a
literal number. -/
def isSymbolic : CalculatorFloat → Bool
  | float _ => false
  | symb _ => true

end CalculatorFloat

/-- Modelled from the spec: complex coefficient (qoqo_calculator
CalculatorComplex), a real and an imaginary CalculatorFloat part. -/
structure CalculatorComplex where
  re : CalculatorFloat
  im : CalculatorFloat
deriving DecidableEq, Repr

namespace CalculatorComplex

/-- Complex coefficient addition, componentwise. -/
def add (x y : CalculatorComplex) : CalculatorComplex :=
  ⟨x.re.add y.re, x.im.add y.im⟩

/-- Exact-zero test: both components are the literal zero. -/
def isZero (x : CalculatorComplex) : Bool :=
  x.re.isZero && x.im.isZero

/-- A complex coefficient is symbolic when either component is. -/
def isSymbolic (x : CalculatorComplex) : Bool :=
  x.re.isSymbolic || x.im.isSymbolic

/-- The literal complex zero. -/
def zero : CalculatorComplex :=
  ⟨.float 0, .float 0⟩

/-- Build a literal complex coefficient from two rationals. -/
def ofRat (a b : ℚ) : CalculatorComplex :=
  ⟨.float a, .float b⟩

end CalculatorComplex

/-- Value-type interface of the operator containers: the exact zero, the
exact-zero test and accumulation, as the spec's opaque Coefficient
requires. -/
class CoeffLike (V : Type) where
  zero : V
  isZero : V → Bool
  add : V → V → V

instance : CoeffLike CalculatorComplex where
  zero := CalculatorComplex.zero
  isZero := CalculatorComplex.isZero
  add := CalculatorComplex.add

instance : CoeffLike CalculatorFloat where
  zero := .float 0
  isZero := CalculatorFloat.isZero
  add := CalculatorFloat.add

/-- Modelled from the spec: the generic operator container, a finite
mapping from canonical product keys to coefficients, embedded as an
association list. -/
abbrev OperatorMap (K V : Type) : Type := List (K × V)

namespace OperatorMap

variable {K V : Type} [DecidableEq K] [CoeffLike V]

/-- The empty container. -/
def empty : OperatorMap K V := []

/-- Raw lookup: the stored coefficient, when the key is present. -/
def lookup (op : OperatorMap K V) (k : K) : Option V :=
  match op with
  | [] => none
  | (k', v) :: rest => if k' = k then some v else lookup rest k

/-- The stored keys. -/
def keys (op : OperatorMap K V) : List K :=
  (op : List (K × V)).map Prod.fst

/-- Modelled from the spec: get returns the stored value or the exact-zero
coefficient if absent (never an error). -/
def get (op : OperatorMap K V) (k : K) : V :=
  match lookup op k with
  | some v => v
  | none => CoeffLike.zero

/-- Remove a key from the container. -/
def remove : OperatorMap K V → K → OperatorMap K V
  | [], _ => []
  | kv :: rest, k => if kv.1 = k then remove rest k else kv :: remove rest k

/-- Modelled from the spec: set overwrites; if the value is exact-zero the
key is removed instead. -/
def set (op : OperatorMap K V) (k : K) (v : V) : OperatorMap K V :=
  if CoeffLike.isZero v then remove op k else (k, v) :: remove op k

/-- Modelled from the spec: add_operator_product accumulates the new
coefficient onto the stored one (zero when absent); an exact-zero result
removes the key. -/
def addOperatorProduct (op : OperatorMap K V) (k : K) (v : V) :
    OperatorMap K V :=
  set op k (CoeffLike.add (get op k) v)

/-- Container well-formedness: keys are unique and no stored coefficient
is exact-zero. -/
def wf (op : OperatorMap K V) : Prop :=
  (keys op).Nodup ∧ ∀ kv ∈ (op : List (K × V)), CoeffLike.isZero kv.2 = false

instance (op : OperatorMap K V) : Decidable (wf op) :=
  inferInstanceAs (Decidable ((keys op).Nodup
    ∧ ∀ kv ∈ (op : List (K × V)), CoeffLike.isZero kv.2 = false))

end OperatorMap

/-- Boolean check that a list of indices is sorted ascending (repeats
allowed). -/
def chainLeB : List ℕ → Bool
  | [] => true
  | [_] => true
  | a :: b :: rest => decide (a ≤ b) && chainLeB (b :: rest)

/-- Boolean check that a list of indices is strictly increasing. -/
def chainLtB : List ℕ → Bool
  | [] => true
  | [_] => true
  | a :: b :: rest => decide (a < b) && chainLtB (b :: rest)

/-- The three single-site Pauli symbols appearing in a PauliProduct entry
(identity contributes no entry). -/
inductive PauliSymbol where
  | X | Y | Z
deriving DecidableEq, Repr

/-- Modelled from the spec: PauliProduct — ordered sequence of
(site index, Pauli symbol) with strictly increasing site indices. -/
structure PauliProduct where
  items : List (ℕ × PauliSymbol)
deriving DecidableEq, Repr

namespace PauliProduct

/-- Canonical form: site indices strictly increasing. -/
def canonical (p : PauliProduct) : Prop :=
  chainLtB (p.items.map Prod.fst) = true

instance (p : PauliProduct) : Decidable (canonical p) :=
  inferInstanceAs (Decidable (chainLtB (p.items.map Prod.fst) = true))

/-- The empty (identity) Pauli product. -/
def one : PauliProduct := ⟨[]⟩

/-- Append a Z symbol at the given site (builder used by the tests as
PauliProduct().z(0)). -/
def z (p : PauliProduct) (site : ℕ) : PauliProduct :=
  ⟨p.items ++ [(site, .Z)]⟩

/-- Append an X symbol at the given site. -/
def x (p : PauliProduct) (site : ℕ) : PauliProduct :=
  ⟨p.items ++ [(site, .X)]⟩

/-- Append a Y symbol at the given site. -/
def y (p : PauliProduct) (site : ℕ) : PauliProduct :=
  ⟨p.items ++ [(site, .Y)]⟩

/-- Modelled from the spec: hermitian conjugation is a no-op (sign +1) for
Hermitian Pauli operators. -/
def hermitianConjugate (p : PauliProduct) : PauliProduct × ℤ :=
  (p, 1)

end PauliProduct

/-- Modelled from the spec: BosonProduct — a multiset of creation-mode
indices and a multiset of annihilation-mode indices, each stored as a
sorted sequence. -/
structure BosonProduct where
  creators : List ℕ
  annihilators : List ℕ
deriving DecidableEq, Repr

namespace BosonProduct

/-- Canonical form: both index sequences sorted ascending (repeats
allowed — bosonic operators within one group commute). -/
def canonical (p : BosonProduct) : Prop :=
  (chainLeB p.creators && chainLeB p.annihilators) = true

instance (p : BosonProduct) : Decidable (canonical p) :=
  inferInstanceAs (Decidable ((chainLeB p.creators && chainLeB p.annihilators) = true))

/-- Construct from raw index lists by sorting each group (no sign for
bosons). This is the test suite's BosonProduct::new. -/
def new (creators annihilators : List ℕ) : BosonProduct :=
  ⟨creators.mergeSort (· ≤ ·), annihilators.mergeSort (· ≤ ·)⟩

/-- All mode indices referenced by the product. -/
def indices (p : BosonProduct) : List ℕ :=
  p.creators ++ p.annihilators

/-- The number of modes the product acts on: highest referenced index
plus one, and 0 for the identity product. -/
def currentNumberModes (p : BosonProduct) : ℕ :=
  (p.indices.map (· + 1)).foldr max 0

/-- Modelled from the spec: bosonic hermitian conjugation reverses
creator/annihilator roles; bosonic re-sorting carries no sign. -/
def hermitianConjugate (p : BosonProduct) : BosonProduct × ℤ :=
  (⟨p.annihilators, p.creators⟩, 1)

end BosonProduct

/-- Modelled from the spec: FermionProduct — strictly sorted sequence of
creation-mode indices and strictly sorted sequence of annihilation-mode
indices (no repeated index within either group). -/
structure FermionProduct where
  creators : List ℕ
  annihilators : List ℕ
deriving DecidableEq, Repr

namespace FermionProduct

/-- Canonical form: both index sequences strictly increasing. -/
def canonical (p : FermionProduct) : Prop :=
  (chainLtB p.creators && chainLtB p.annihilators) = true

instance (p : FermionProduct) : Decidable (canonical p) :=
  inferInstanceAs (Decidable ((chainLtB p.creators && chainLtB p.annihilators) = true))

/-- The sign accumulated when conjugating a fermionic product: conjugation
reverses each group, and re-sorting a reversed group of n distinct
operators costs n(n-1)/2 transpositions. -/
def conjSign (p : FermionProduct) : ℤ :=
  (-1 : ℤ) ^ (p.creators.length * (p.creators.length - 1) / 2
    + p.annihilators.length * (p.annihilators.length - 1) / 2)

/-- Modelled from the spec: fermionic hermitian conjugation reverses
creator/annihilator roles with the accompanying sign from re-sorting. -/
def hermitianConjugate (p : FermionProduct) : FermionProduct × ℤ :=
  (⟨p.annihilators, p.creators⟩, p.conjSign)

end FermionProduct

/-- Modelled from the spec: MixedProduct — a fixed-arity ordered tuple of
spin, boson and fermion sub-products, one slot per declared subsystem. -/
structure MixedProduct where
  spins : List PauliProduct
  bosons : List BosonProduct
  fermions : List FermionProduct
deriving DecidableEq, Repr

namespace MixedProduct

/-- Canonical form: every slot canonical. -/
def canonical (p : MixedProduct) : Prop :=
  (∀ s ∈ p.spins, s.canonical) ∧ (∀ b ∈ p.bosons, b.canonical)
    ∧ (∀ f ∈ p.fermions, f.canonical)

instance (p : MixedProduct) : Decidable (canonical p) :=
  inferInstanceAs (Decidable ((∀ s ∈ p.spins, s.canonical)
    ∧ (∀ b ∈ p.bosons, b.canonical) ∧ (∀ f ∈ p.fermions, f.canonical)))

/-- Modelled from the spec: mixed hermitian conjugation conjugates
slot-wise and multiplies the slot signs. -/
def hermitianConjugate (p : MixedProduct) : MixedProduct × ℤ :=
  (⟨p.spins, p.bosons.map (fun b => b.hermitianConjugate.1),
      p.fermions.map (fun f => f.hermitianConjugate.1)⟩,
    (p.fermions.map (fun f => f.hermitianConjugate.2)).prod)

end MixedProduct

/-- Modelled from the spec: the Hermitian boson variant stores the
lexicographically smaller of (creators, annihilators) first. -/
def HermitianBosonProduct.canonical (p : BosonProduct) : Prop :=
  p.canonical ∧ (p.creators ≤ p.annihilators)

/-- Modelled from the spec: the Hermitian fermion variant stores the
lexicographically smaller of (creators, annihilators) first. -/
def HermitianFermionProduct.canonical (p : FermionProduct) : Prop :=
  p.canonical ∧ (p.creators ≤ p.annihilators)

instance (p : BosonProduct) : Decidable (HermitianBosonProduct.canonical p) :=
  inferInstanceAs (Decidable (p.canonical ∧ (p.creators ≤ p.annihilators)))

instance (p : FermionProduct) : Decidable (HermitianFermionProduct.canonical p) :=
  inferInstanceAs (Decidable (p.canonical ∧ (p.creators ≤ p.annihilators)))

/-- Modelled from the spec: on the stored Hermitian-representative key the
conjugate is represented by the key itself (only one of O and O-dagger is
kept), so conjugation is a no-op with sign +1. -/
def HermitianBosonProduct.hermitianConjugate (p : BosonProduct) :
    BosonProduct × ℤ :=
  (p, 1)

/-- Modelled from the spec: Hermitian fermion conjugation on the stored
representative key is a no-op with sign +1. -/
def HermitianFermionProduct.hermitianConjugate (p : FermionProduct) :
    FermionProduct × ℤ :=
  (p, 1)

/-- Literal complex rationals used for the Pauli multiplication phases. -/
abbrev Cq : Type := ℚ × ℚ

/-- Complex multiplication on literal complex rationals. -/
def Cq.mul (a b : Cq) : Cq :=
  (a.1 * b.1 - a.2 * b.2, a.1 * b.2 + a.2 * b.1)

/-- Modelled from the spec: the single-site Pauli multiplication table,
with the X·Z = -iY convention pinned by the spec scenario; a same-symbol
product collapses to identity (no site entry). -/
def PauliSymbol.mulTable : PauliSymbol → PauliSymbol →
    Option PauliSymbol × Cq
  | .X, .X => (none, (1, 0))
  | .Y, .Y => (none, (1, 0))
  | .Z, .Z => (none, (1, 0))
  | .X, .Y => (some .Z, (0, -1))
  | .Y, .X => (some .Z, (0, 1))
  | .Y, .Z => (some .X, (0, -1))
  | .Z, .Y => (some .X, (0, 1))
  | .Z, .X => (some .Y, (0, -1))
  | .X, .Z => (some .Y, (0, 1))

/-- Modelled from the spec: merge two site-sorted Pauli item lists,
multiplying symbols on overlapping sites via the table and accumulating the
overall phase; disjoint sites concatenate in order. -/
def mulPauliItems : List (ℕ × PauliSymbol) → List (ℕ × PauliSymbol) →
    List (ℕ × PauliSymbol) × Cq
  | [], ys => (ys, (1, 0))
  | xv :: xs, [] => (xv :: xs, (1, 0))
  | (i, s) :: xs, (j, t) :: ys =>
    if i < j then
      let r := mulPauliItems xs ((j, t) :: ys)
      ((i, s) :: r.1, r.2)
    else if j < i then
      let r := mulPauliItems ((i, s) :: xs) ys
      ((j, t) :: r.1, r.2)
    else
      match PauliSymbol.mulTable s t with
      | (none, c) =>
        let r := mulPauliItems xs ys
        (r.1, Cq.mul c r.2)
      | (some u, c) =>
        let r := mulPauliItems xs ys
        ((i, u) :: r.1, Cq.mul c r.2)
termination_by xs ys => xs.length + ys.length

/-- Modelled from the spec: Pauli product multiplication — always exactly
one term, the merged product with its accumulated phase in
the set containing 1, i, -1 and -i. -/
def PauliProduct.multiply (a b : PauliProduct) :
    List (PauliProduct × CalculatorComplex) :=
  let r := mulPauliItems a.items b.items
  [(⟨r.1⟩, CalculatorComplex.ofRat r.2.1 r.2.2)]

/-- Character value of a decimal digit character. -/
def charDigit (c : Char) : ℕ := c.toNat - 48

/-- Decimal rendering of a natural number as characters. -/
def natChars (n : ℕ) : List Char :=
  if n = 0 then ['0'] else ((Nat.digits 10 n).map Nat.digitChar).reverse

/-- Split off the maximal leading run of decimal digit characters. -/
def takeDigits : List Char → List Char × List Char
  | [] => ([], [])
  | c :: cs =>
    if c.isDigit then
      let r := takeDigits cs
      (c :: r.1, r.2)
    else ([], c :: cs)

/-- Numeric value of a digit-character run (most significant first). -/
def digitsVal (ds : List Char) : ℕ :=
  Nat.ofDigits 10 (ds.map charDigit).reverse

/-- Parse a leading decimal numeral; fails when no digit is present. -/
def parseNat (cs : List Char) : Option (ℕ × List Char) :=
  let r := takeDigits cs
  if r.1.isEmpty then none else some (digitsVal r.1, r.2)

/-- Parse a maximal run of tagged indices (the tag character followed by a
numeral, repeated), as in the creator run "c0c1" of a boson/fermion text
form. -/
def parseTagRun (tag : Char) : List Char → Option (List ℕ × List Char)
  | [] => some ([], [])
  | c :: cs =>
    if c = tag then
      match h : parseNat cs with
      | none => none
      | some (n, rest) =>
        match parseTagRun tag rest with
        | none => none
        | some (ns, rest') => some (n :: ns, rest')
    else some ([], c :: cs)
termination_by cs => cs.length
decreasing_by
  have hle : ∀ l : List Char, (takeDigits l).2.length ≤ l.length := by
    intro l
    induction l with
    | nil => simp [takeDigits]
    | cons d ds ih =>
      by_cases hd : d.isDigit
      · simp only [takeDigits, hd, if_true]
        exact Nat.le_succ_of_le ih
      · simp [takeDigits, hd]
  have hr : rest = (takeDigits cs).2 := by
    simp only [parseNat] at h
    by_cases he : (takeDigits cs).1.isEmpty
    · simp [he] at h
    · simp only [he, Bool.false_eq_true, if_false, Option.some.injEq,
        Prod.mk.injEq] at h
      exact h.2.symm
  simp only [hr, List.length_cons]
  exact Nat.lt_succ_of_le (hle cs)

/-- Modelled from the spec: canonical text form of a creator/annihilator
index pair — "c" before each creation index, then "a" before each
annihilation index; "I" for the identity (empty) product. -/
def caChars (cr an : List ℕ) : List Char :=
  if cr.isEmpty && an.isEmpty then ['I']
  else (cr.map (fun i => 'c' :: natChars i)).flatten
    ++ (an.map (fun i => 'a' :: natChars i)).flatten

/-- Shared front end of the boson/fermion text parsers: the "c" run
followed by the "a" run, the whole input consumed. -/
def parseCA (cs : List Char) : Option (List ℕ × List ℕ) :=
  if cs = ['I'] then some ([], [])
  else
    match parseTagRun 'c' cs with
    | none => none
    | some (cr, rest) =>
      match parseTagRun 'a' rest with
      | none => none
      | some (an, rest') => if rest'.isEmpty then some (cr, an) else none

/-- Modelled from the spec: canonical text form of a BosonProduct
(for example "c0a1"). -/
def BosonProduct.fmtChars (p : BosonProduct) : List Char :=
  caChars p.creators p.annihilators

/-- Modelled from the spec: parse the boson text grammar, accepting only
the canonical sorted form. -/
def parseBosonChars (cs : List Char) : Except String BosonProduct :=
  match parseCA cs with
  | none => .error "Input cannot be parsed as a BosonProduct"
  | some (cr, an) =>
    if BosonProduct.canonical ⟨cr, an⟩ then .ok ⟨cr, an⟩
    else .error "Input is not a canonical BosonProduct"

/-- Modelled from the spec: canonical text form of a FermionProduct. -/
def FermionProduct.fmtChars (p : FermionProduct) : List Char :=
  caChars p.creators p.annihilators

/-- Modelled from the spec: parse the fermion text grammar, accepting only
the canonical strictly-sorted form. -/
def parseFermionChars (cs : List Char) : Except String FermionProduct :=
  match parseCA cs with
  | none => .error "Input cannot be parsed as a FermionProduct"
  | some (cr, an) =>
    if FermionProduct.canonical ⟨cr, an⟩ then .ok ⟨cr, an⟩
    else .error "Input is not a canonical FermionProduct"

/-- Modelled from the spec: parse text as a Hermitian boson product — the
boson grammar restricted to Hermitian-canonical representatives. -/
def parseHermitianBosonChars (cs : List Char) : Except String BosonProduct :=
  match parseCA cs with
  | none => .error "Input cannot be parsed as a HermitianBosonProduct"
  | some (cr, an) =>
    if HermitianBosonProduct.canonical ⟨cr, an⟩ then .ok ⟨cr, an⟩
    else .error "Input is not a canonical HermitianBosonProduct"

/-- Modelled from the spec: parse text as a Hermitian fermion product. -/
def parseHermitianFermionChars (cs : List Char) :
    Except String FermionProduct :=
  match parseCA cs with
  | none => .error "Input cannot be parsed as a HermitianFermionProduct"
  | some (cr, an) =>
    if HermitianFermionProduct.canonical ⟨cr, an⟩ then .ok ⟨cr, an⟩
    else .error "Input is not a canonical HermitianFermionProduct"

/-- Display character of a Pauli symbol. -/
def PauliSymbol.char : PauliSymbol → Char
  | .X => 'X'
  | .Y => 'Y'
  | .Z => 'Z'

/-- Pauli symbol of a display character. -/
def PauliSymbol.ofChar : Char → Option PauliSymbol
  | 'X' => some .X
  | 'Y' => some .Y
  | 'Z' => some .Z
  | _ => none

/-- Modelled from the spec: canonical text form of a PauliProduct
(for example "0Z1X"); "I" for the identity. -/
def PauliProduct.fmtChars (p : PauliProduct) : List Char :=
  if p.items.isEmpty then ['I']
  else (p.items.map (fun it => natChars it.1 ++ [it.2.char])).flatten

/-- Parse a maximal run of (numeral, symbol-character) sites, generic in
the symbol alphabet. -/
def parseSiteRun {σ : Type} (ofChar : Char → Option σ) :
    List Char → Option (List (ℕ × σ) × List Char)
  | [] => some ([], [])
  | c :: cs =>
    if c.isDigit then
      match h : parseNat (c :: cs) with
      | none => none
      | some (n, rest) =>
        match rest with
        | [] => none
        | d :: rest' =>
          match ofChar d with
          | none => none
          | some sym =>
            match parseSiteRun ofChar rest' with
            | none => none
            | some (sites, rest'') => some ((n, sym) :: sites, rest'')
    else some ([], c :: cs)
termination_by cs => cs.length
decreasing_by
  have hle : ∀ l : List Char, (takeDigits l).2.length ≤ l.length := by
    intro l
    induction l with
    | nil => simp [takeDigits]
    | cons e es ih =>
      by_cases he : e.isDigit
      · simp only [takeDigits, he, if_true]
        exact Nat.le_succ_of_le ih
      · simp [takeDigits, he]
  have hr : d :: rest' = (takeDigits (c :: cs)).2 := by
    simp only [parseNat] at h
    by_cases he : (takeDigits (c :: cs)).1.isEmpty
    · simp [he] at h
    · simp only [he, Bool.false_eq_true, if_false, Option.some.injEq,
        Prod.mk.injEq] at h
      exact h.2.symm
  have h2 : (d :: rest').length ≤ (c :: cs).length := hr ▸ hle (c :: cs)
  simp only [List.length_cons] at h2 ⊢
  omega

/-- Modelled from the spec: parse the Pauli text grammar, accepting only
the canonical strictly-increasing-site form. -/
def parsePauliChars (cs : List Char) : Except String PauliProduct :=
  if cs = ['I'] then .ok ⟨[]⟩
  else
    match parseSiteRun PauliSymbol.ofChar cs with
    | none => .error "Input cannot be parsed as a PauliProduct"
    | some (items, rest) =>
      if rest.isEmpty then
        if PauliProduct.canonical ⟨items⟩ then .ok ⟨items⟩
        else .error "Input is not a canonical PauliProduct"
      else .error "Input cannot be parsed as a PauliProduct"

/-- Take the characters before the next colon, failing when no colon
remains. -/
def takeToColon (cs : List Char) : Option (List Char × List Char) :=
  if ':' ∈ cs then
    some (cs.takeWhile (fun c => c ≠ ':'), (cs.dropWhile (fun c => c ≠ ':')).tail)
  else none

/-- Parse a maximal run of colon-terminated segments introduced by the
given slot tag. -/
def parseSegRun (tag : Char) : List Char → Option (List (List Char) × List Char)
  | [] => some ([], [])
  | c :: cs =>
    if c = tag then
      match h : takeToColon cs with
      | none => none
      | some (seg, rest) =>
        match parseSegRun tag rest with
        | none => none
        | some (segs, rest') => some (seg :: segs, rest')
    else some ([], c :: cs)
termination_by cs => cs.length
decreasing_by
  have hmem : ':' ∈ cs := by
    by_contra hn
    simp [takeToColon, hn] at h
  have hr : rest = (cs.dropWhile (fun c => c ≠ ':')).tail := by
    simp only [takeToColon, hmem, if_true, Option.some.injEq,
      Prod.mk.injEq] at h
    exact h.2.symm
  have hne : cs.dropWhile (fun c => c ≠ ':') ≠ [] := by
    intro h0
    rw [List.dropWhile_eq_nil_iff] at h0
    have := h0 ':' hmem
    simp at this
  have hlen : (cs.dropWhile (fun c => c ≠ ':')).length ≤ cs.length :=
    (List.dropWhile_sublist _).length_le
  have htail : (cs.dropWhile (fun c => c ≠ ':')).tail.length
      < (cs.dropWhile (fun c => c ≠ ':')).length := by
    cases hdw : cs.dropWhile (fun c => c ≠ ':') with
    | nil => exact absurd hdw hne
    | cons x xs => simp
  simp only [hr, List.length_cons]
  omega

/-- Map a fallible function over a list, failing on the first error. -/
def mapExcept {α β ε : Type} (f : α → Except ε β) : List α → Except ε (List β)
  | [] => .ok []
  | a :: as =>
    match f a with
    | .error e => .error e
    | .ok b =>
      match mapExcept f as with
      | .error e => .error e
      | .ok bs => .ok (b :: bs)

/-- Modelled from the spec: canonical text form of a MixedProduct — each
spin slot rendered as "S…:", then boson slots "B…:", then fermion slots
"F…:" (for example "S0Z:Bc0a1:Fc0a0:"). -/
def MixedProduct.fmtChars (p : MixedProduct) : List Char :=
  (p.spins.map (fun s => 'S' :: (s.fmtChars ++ [':']))).flatten
    ++ (p.bosons.map (fun b => 'B' :: (b.fmtChars ++ [':']))).flatten
    ++ (p.fermions.map (fun f => 'F' :: (f.fmtChars ++ [':']))).flatten

/-- Modelled from the spec: parse the mixed text grammar (an optional
leading colon, then the tagged colon-terminated slot segments in
spin/boson/fermion order), each segment through the slot's own parser. -/
def parseMixedChars (cs0 : List Char) : Except String MixedProduct :=
  let cs := if cs0.head? = some ':' then cs0.tail else cs0
  match parseSegRun 'S' cs with
  | none => .error "Input cannot be parsed as a MixedProduct"
  | some (sSegs, rest1) =>
    match parseSegRun 'B' rest1 with
    | none => .error "Input cannot be parsed as a MixedProduct"
    | some (bSegs, rest2) =>
      match parseSegRun 'F' rest2 with
      | none => .error "Input cannot be parsed as a MixedProduct"
      | some (fSegs, rest3) =>
        if rest3.isEmpty then
          match mapExcept parsePauliChars sSegs with
          | .error e => .error e
          | .ok spins =>
            match mapExcept parseBosonChars bSegs with
            | .error e => .error e
            | .ok bosons =>
              match mapExcept parseFermionChars fSegs with
              | .error e => .error e
              | .ok fermions => .ok ⟨spins, bosons, fermions⟩
        else .error "Input cannot be parsed as a MixedProduct"

/-- The error kinds of the system layer observed by the tests; the spec
calls the capacity violation CapacityExceeded, the code
NumberModesExceeded. -/
inductive StruqtureError where
  | NumberModesExceeded
deriving DecidableEq, Repr

/-- Modelled from the spec: the System layer — an operator container plus
an optional declared capacity (maximum mode/site count). -/
structure SystemOf (K V : Type) where
  capacity : Option ℕ
  operator : OperatorMap K V
deriving DecidableEq

namespace SystemOf

variable {K V : Type} [DecidableEq K] [CoeffLike V]

/-- Create an empty System with the given optional capacity. -/
def new (capacity : Option ℕ) : SystemOf K V :=
  ⟨capacity, []⟩

/-- The default-constructed System: empty, no declared capacity. -/
def defaultSystem : SystemOf K V :=
  ⟨none, []⟩

/-- The number of modes currently used: the maximum over stored keys of
the key's own mode count (`cnm`), 0 when empty. -/
def currentNumberModes (cnm : K → ℕ) (s : SystemOf K V) : ℕ :=
  ((OperatorMap.keys s.operator).map cnm).foldr max 0

/-- The declared capacity when present, otherwise the current number of
modes. -/
def numberModes (cnm : K → ℕ) (s : SystemOf K V) : ℕ :=
  match s.capacity with
  | some n => n
  | none => currentNumberModes cnm s

/-- Modelled from the spec: System set — check the product against the
declared capacity first; a violation reports NumberModesExceeded (the
spec's CapacityExceeded) and leaves the operator untouched. -/
def set (cnm : K → ℕ) (s : SystemOf K V) (k : K) (v : V) :
    Except StruqtureError Unit × SystemOf K V :=
  match s.capacity with
  | some n =>
    if cnm k ≤ n then (.ok (), ⟨s.capacity, s.operator.set k v⟩)
    else (.error .NumberModesExceeded, s)
  | none => (.ok (), ⟨s.capacity, s.operator.set k v⟩)

/-- Modelled from the spec: System add_operator_product — capacity check,
then accumulate into the operator. -/
def addOperatorProduct (cnm : K → ℕ) (s : SystemOf K V) (k : K) (v : V) :
    Except StruqtureError Unit × SystemOf K V :=
  match s.capacity with
  | some n =>
    if cnm k ≤ n then (.ok (), ⟨s.capacity, s.operator.addOperatorProduct k v⟩)
    else (.error .NumberModesExceeded, s)
  | none => (.ok (), ⟨s.capacity, s.operator.addOperatorProduct k v⟩)

end SystemOf

/-- Number of spins a Pauli product acts on: highest site index plus one. -/
def PauliProduct.currentNumberSpins (p : PauliProduct) : ℕ :=
  (p.items.map (fun it => it.1 + 1)).foldr max 0

/-- The BosonSystem of the tests: boson-keyed operator with capacity. -/
abbrev BosonSystem : Type := SystemOf BosonProduct CalculatorComplex

/-- BosonSystem set with the bosonic mode count. -/
def BosonSystem.set (s : BosonSystem) (k : BosonProduct)
    (v : CalculatorComplex) : Except StruqtureError Unit × BosonSystem :=
  SystemOf.set BosonProduct.currentNumberModes s k v

/-- BosonSystem add_operator_product with the bosonic mode count. -/
def BosonSystem.addOperatorProduct (s : BosonSystem) (k : BosonProduct)
    (v : CalculatorComplex) : Except StruqtureError Unit × BosonSystem :=
  SystemOf.addOperatorProduct BosonProduct.currentNumberModes s k v

/-- Modelled from the spec: does a coefficient's resolved magnitude exceed
the threshold — for a literal complex value, the (non-negative) modulus
sqrt(a^2 + b^2) exceeds t exactly when t is negative or t^2 is below the
squared modulus; symbolic coefficients cannot be compared and are always
kept. -/
def truncKeep (v : CalculatorComplex) (t : ℚ) : Bool :=
  match v.re, v.im with
  | .float a, .float b => decide (t < 0 ∨ t * t < a * a + b * b)
  | _, _ => true

/-- Modelled from the spec: truncate — keep exactly the entries whose
coefficient is symbolic or whose resolved magnitude exceeds the
threshold. -/
def OperatorMap.truncate {K : Type}
    (op : OperatorMap K CalculatorComplex) (t : ℚ) :
    OperatorMap K CalculatorComplex :=
  (op : List (K × CalculatorComplex)).filter (fun kv => truncKeep kv.2 t)

/-- Modelled from the spec: separate_into_n_terms — partition the entries
into those whose product's per-group operator counts equal the target
shape and the remainder. -/
def OperatorMap.separateIntoNTerms {K V S : Type} [DecidableEq S]
    (shape : K → S) (op : OperatorMap K V) (target : S) :
    OperatorMap K V × OperatorMap K V :=
  ((op : List (K × V)).filter (fun kv => shape kv.1 = target),
    (op : List (K × V)).filter (fun kv => shape kv.1 ≠ target))

/-- The per-group operator counts of a boson product: (number of
creators, number of annihilators). -/
def BosonProduct.nShape (p : BosonProduct) : ℕ × ℕ :=
  (p.creators.length, p.annihilators.length)

/-- Get through the binding layer by key text: the key text is parsed
first, and an unparseable key is an error, never a silent zero. -/
def OperatorMap.getByStr (op : OperatorMap BosonProduct CalculatorComplex)
    (s : String) : Except String CalculatorComplex :=
  match parseBosonChars s.toList with
  | .error e => .error e
  | .ok p => .ok (op.get p)

/-- Modelled from the spec: the Open System — a Hermitian system half and
a pair-keyed noise half sharing one capacity. -/
structure BosonLindbladOpenSystem where
  capacity : Option ℕ
  system : OperatorMap BosonProduct CalculatorComplex
  noise : OperatorMap (BosonProduct × BosonProduct) CalculatorComplex
deriving DecidableEq

namespace BosonLindbladOpenSystem

/-- Create an empty open system with the given optional capacity. -/
def new (capacity : Option ℕ) : BosonLindbladOpenSystem :=
  ⟨capacity, [], []⟩

/-- Mode count of a noise key: both Lindblad operators live in the same
mode range. -/
def pairCnm (k : BosonProduct × BosonProduct) : ℕ :=
  max k.1.currentNumberModes k.2.currentNumberModes

/-- Current number of modes of the open system: the larger of the two
halves' current counts. -/
def currentNumberModes (s : BosonLindbladOpenSystem) : ℕ :=
  max (((OperatorMap.keys s.system).map BosonProduct.currentNumberModes).foldr max 0)
    (((OperatorMap.keys s.noise).map pairCnm).foldr max 0)

/-- Declared capacity when present, otherwise the current count. -/
def numberModes (s : BosonLindbladOpenSystem) : ℕ :=
  match s.capacity with
  | some n => n
  | none => s.currentNumberModes

/-- Accumulate into the system half, after the shared capacity check. -/
def systemAddOperatorProduct (s : BosonLindbladOpenSystem)
    (k : BosonProduct) (v : CalculatorComplex) :
    Except StruqtureError Unit × BosonLindbladOpenSystem :=
  match s.capacity with
  | some n =>
    if k.currentNumberModes ≤ n then
      (.ok (), ⟨s.capacity, s.system.addOperatorProduct k v, s.noise⟩)
    else (.error .NumberModesExceeded, s)
  | none => (.ok (), ⟨s.capacity, s.system.addOperatorProduct k v, s.noise⟩)

/-- Accumulate into the noise half, after the shared capacity check. -/
def noiseAddOperatorProduct (s : BosonLindbladOpenSystem)
    (k : BosonProduct × BosonProduct) (v : CalculatorComplex) :
    Except StruqtureError Unit × BosonLindbladOpenSystem :=
  match s.capacity with
  | some n =>
    if pairCnm k ≤ n then
      (.ok (), ⟨s.capacity, s.system, s.noise.addOperatorProduct k v⟩)
    else (.error .NumberModesExceeded, s)
  | none => (.ok (), ⟨s.capacity, s.system, s.noise.addOperatorProduct k v⟩)

/-- Modelled from the spec: truncate an open system — truncate the two
halves independently and re-group. -/
def truncate (s : BosonLindbladOpenSystem) (t : ℚ) :
    BosonLindbladOpenSystem :=
  ⟨s.capacity, s.system.truncate t, s.noise.truncate t⟩

end BosonLindbladOpenSystem

/-- The PlusMinus single-site symbols (+, -, Z). -/
inductive PMSymbol where
  | plus | minus | Z
deriving DecidableEq, Repr

/-- PlusMinus symbol of a display character. -/
def PMSymbol.ofChar : Char → Option PMSymbol
  | '+' => some .plus
  | '-' => some .minus
  | 'Z' => some .Z
  | _ => none

/-- Modelled from the spec: PlusMinusProduct — ordered sequence of
(site, PlusMinus symbol) with strictly increasing sites. -/
structure PlusMinusProduct where
  items : List (ℕ × PMSymbol)
deriving DecidableEq, Repr

/-- Canonical form of a PlusMinusProduct: strictly increasing sites. -/
def PlusMinusProduct.canonical (p : PlusMinusProduct) : Prop :=
  chainLtB (p.items.map Prod.fst) = true

instance (p : PlusMinusProduct) : Decidable (p.canonical) :=
  inferInstanceAs (Decidable (chainLtB (p.items.map Prod.fst) = true))

/-- Modelled from the spec: parse the PlusMinus text grammar. -/
def parsePlusMinusChars (cs : List Char) : Except String PlusMinusProduct :=
  if cs = ['I'] then .ok ⟨[]⟩
  else
    match parseSiteRun PMSymbol.ofChar cs with
    | none => .error "Input cannot be parsed as a PlusMinusProduct"
    | some (items, rest) =>
      if rest.isEmpty then
        if PlusMinusProduct.canonical ⟨items⟩ then .ok ⟨items⟩
        else .error "Input is not a canonical PlusMinusProduct"
      else .error "Input cannot be parsed as a PlusMinusProduct"

/-- Result of externally deserializing a struqture 2.x json document into
its term list: the keys already rendered to their text forms, or none when
the document does not deserialize. -/
abbrev Struqture2Doc (KeyText : Type) (V : Type) : Type :=
  Option (List (KeyText × V))

/-- The re-insertion loop of fromJsonStruqture2Spin. -/
def fromJsonStruqture2SpinGo (terms : List (String × CalculatorFloat))
    (acc : SystemOf PauliProduct CalculatorFloat) :
    Except String (SystemOf PauliProduct CalculatorFloat) :=
  match terms with
  | [] => .ok acc
  | (key, val) :: rest =>
    match parsePauliChars key.toList with
    | .error e =>
      .error ("Struqture 2.x PauliProduct cannot be converted to struqture 1.x: " ++ e)
    | .ok k =>
      fromJsonStruqture2SpinGo rest
        (SystemOf.set PauliProduct.currentNumberSpins acc k val).2

/-- Transcription of SpinHamiltonianSystemWrapper::from_json_struqture_2
(struqture-py/src/spins/spin_hamiltonian_system.rs): on a deserialized
document, re-key every term through the current generation's PauliProduct
parser, aborting on the first unparseable key; each re-insertion's Result
is discarded (the source's discarded set return), keeping whatever state
set left behind. -/
def fromJsonStruqture2Spin (doc : Struqture2Doc String CalculatorFloat) :
    Except String (SystemOf PauliProduct CalculatorFloat) :=
  match doc with
  | none => .error "Input cannot be deserialized from json to struqture 2.x"
  | some terms => fromJsonStruqture2SpinGo terms (SystemOf.new none)

/-- The re-insertion loop of fromJsonStruqture2PMNoise. -/
def fromJsonStruqture2PMNoiseGo
    (terms : List ((String × String) × CalculatorComplex))
    (acc : OperatorMap (PlusMinusProduct × PlusMinusProduct)
      CalculatorComplex) :
    Except String (OperatorMap (PlusMinusProduct × PlusMinusProduct)
      CalculatorComplex) :=
  match terms with
  | [] => .ok acc
  | (key, val) :: rest =>
    match parsePlusMinusChars key.1.toList with
    | .error e =>
      .error ("Struqture 2.x PlusMinusProduct cannot be converted to struqture 1.x: " ++ e)
    | .ok kl =>
      match parsePlusMinusChars key.2.toList with
      | .error e =>
        .error ("Struqture 2.x PlusMinusProduct cannot be converted to struqture 1.x: " ++ e)
      | .ok kr =>
        fromJsonStruqture2PMNoiseGo rest (acc.set (kl, kr) val)

/-- Transcription of PlusMinusLindbladNoiseOperatorWrapper::
from_json_struqture_2 (struqture-py/src/spins/plus_minus_noise_operator.rs):
pair-keyed variant: both key components are re-parsed, and the insertion
Result is likewise discarded. -/
def fromJsonStruqture2PMNoise
    (doc : Struqture2Doc (String × String) CalculatorComplex) :
    Except String (OperatorMap (PlusMinusProduct × PlusMinusProduct)
      CalculatorComplex) :=
  match doc with
  | none => .error "Input cannot be deserialized from json to struqture 2.x"
  | some terms => fromJsonStruqture2PMNoiseGo terms []

/-- A mutation step of the operator-container lifecycle: set (overwrite),
add_operator_product (accumulate) or remove. -/
inductive MutOp (K V : Type) where
  | setOp : K → V → MutOp K V
  | addOp : K → V → MutOp K V
  | removeOp : K → MutOp K V

/-- Apply one mutation step. -/
def applyMutOp {K V : Type} [DecidableEq K] [CoeffLike V]
    (op : OperatorMap K V) : MutOp K V → OperatorMap K V
  | .setOp k v => op.set k v
  | .addOp k v => op.addOperatorProduct k v
  | .removeOp k => op.remove k

/-- Apply a sequence of mutation steps, oldest first. -/
def applyMutOps {K V : Type} [DecidableEq K] [CoeffLike V]
    (op : OperatorMap K V) (steps : List (MutOp K V)) : OperatorMap K V :=
  steps.foldl applyMutOp op

/-- A capacity-free BosonSystem after a sequence of insertions starting
from the empty None-capacity system. -/
def BosonSystem.afterAdds
    (adds : List (BosonProduct × CalculatorComplex)) : BosonSystem :=
  adds.foldl (fun s kv => (BosonSystem.addOperatorProduct s kv.1 kv.2).2)
    (SystemOf.new none)

/-- Every mode index referenced by any product stored in a boson
system. -/
def BosonSystem.allIndices (s : BosonSystem) : List ℕ :=
  (OperatorMap.keys s.operator).flatMap BosonProduct.indices

/-- An insertion into one half of an open system. -/
inductive OpenIns where
  | sysIns : BosonProduct → CalculatorComplex → OpenIns
  | noiseIns : BosonProduct × BosonProduct → CalculatorComplex → OpenIns

/-- A capacity-free open system after a sequence of insertions starting
from the empty None-capacity open system. -/
def BosonLindbladOpenSystem.afterAdds (adds : List OpenIns) :
    BosonLindbladOpenSystem :=
  adds.foldl
    (fun s a =>
      match a with
      | .sysIns k v => (s.systemAddOperatorProduct k v).2
      | .noiseIns k v => (s.noiseAddOperatorProduct k v).2)
    (BosonLindbladOpenSystem.new none)

/-- Every mode index referenced on either half of an open system. -/
def BosonLindbladOpenSystem.allIndices (s : BosonLindbladOpenSystem) :
    List ℕ :=
  (OperatorMap.keys s.system).flatMap BosonProduct.indices
    ++ (OperatorMap.keys s.noise).flatMap
      (fun k => k.1.indices ++ k.2.indices)

/-!
Theorems. First the container-level lemmas shared by several claims, then
per-claim developments.
-/

namespace OperatorMap

variable {K V : Type} [DecidableEq K] [CoeffLike V]

theorem lookup_eq_none (op : OperatorMap K V) (k : K) :
    lookup op k = none ↔ k ∉ keys op := by
  induction op with
  | nil => simp [lookup, keys]
  | cons kv rest ih =>
    by_cases h : kv.1 = k
    · simp [lookup, keys, h]
    · simp [lookup, keys, h, ih, Ne.symm h]

theorem lookup_eq_some_of_mem {op : OperatorMap K V} {k : K} {v : V}
    (hnd : (keys op).Nodup) (hm : (k, v) ∈ op) : lookup op k = some v := by
  induction op with
  | nil => simp at hm
  | cons kv rest ih =>
    simp only [keys, List.map_cons, List.nodup_cons] at hnd
    rcases List.mem_cons.mp hm with h | h
    · simp [lookup, ← h]
    · have hk : kv.1 ≠ k := by
        intro he
        exact hnd.1 (he ▸ (List.mem_map_of_mem Prod.fst h))
      simp only [lookup, hk, if_false]
      exact ih hnd.2 h

theorem mem_of_lookup_eq_some {op : OperatorMap K V} {k : K} {v : V}
    (h : lookup op k = some v) : (k, v) ∈ op := by
  induction op with
  | nil => simp [lookup] at h
  | cons kv rest ih =>
    by_cases hk : kv.1 = k
    · simp only [lookup, hk, if_true, Option.some.injEq] at h
      have he : (k, v) = kv := by rw [← hk, ← h]
      exact he ▸ List.mem_cons_self kv rest
    · simp only [lookup, hk, if_false] at h
      exact List.mem_cons_of_mem _ (ih h)

theorem mem_remove {op : OperatorMap K V} {k : K} {kv : K × V} :
    kv ∈ remove op k ↔ kv ∈ op ∧ kv.1 ≠ k := by
  induction op with
  | nil => simp [remove]
  | cons hd rest ih =>
    by_cases h : hd.1 = k
    · rw [remove, if_pos h, ih]
      constructor
      · exact fun hp => ⟨List.mem_cons_of_mem _ hp.1, hp.2⟩
      · rintro ⟨hm, hne⟩
        rcases List.mem_cons.mp hm with h1 | h1
        · exact absurd (h1 ▸ h) hne
        · exact ⟨h1, hne⟩
    · rw [remove, if_neg h]
      constructor
      · intro hm
        rcases List.mem_cons.mp hm with h1 | h1
        · exact ⟨h1 ▸ List.mem_cons_self hd rest, h1 ▸ h⟩
        · have := ih.mp h1
          exact ⟨List.mem_cons_of_mem _ this.1, this.2⟩
      · rintro ⟨hm, hne⟩
        rcases List.mem_cons.mp hm with h1 | h1
        · exact h1 ▸ List.mem_cons_self hd _
        · exact List.mem_cons_of_mem _ (ih.mpr ⟨h1, hne⟩)

theorem remove_sublist (op : OperatorMap K V) (k : K) :
    List.Sublist (remove op k) op := by
  induction op with
  | nil => simp [remove]
  | cons hd rest ih =>
    by_cases h : hd.1 = k
    · rw [remove, if_pos h]
      exact ih.cons hd
    · rw [remove, if_neg h]
      exact ih.cons₂ hd

theorem lookup_remove (op : OperatorMap K V) (k k' : K) :
    lookup (remove op k) k' = if k' = k then none else lookup op k' := by
  induction op with
  | nil => simp [remove, lookup]
  | cons kv rest ih =>
    by_cases h1 : kv.1 = k
    · rw [remove, if_pos h1, ih]
      by_cases h2 : k' = k
      · simp [h2]
      · have hne : kv.1 ≠ k' := by
          rw [h1]; exact fun he => h2 he.symm
        simp [lookup, h2, hne]
    · rw [remove, if_neg h1]
      by_cases h3 : kv.1 = k'
      · have hk : ¬ k' = k := fun he => h1 (h3.trans he)
        simp [lookup, h3, hk]
      · simp only [lookup, h3, if_false]
        exact ih

theorem wf_remove {op : OperatorMap K V} (h : wf op) (k : K) :
    wf (remove op k) := by
  constructor
  · exact h.1.sublist ((remove_sublist op k).map Prod.fst)
  · intro kv hm
    exact h.2 kv (mem_remove.mp hm).1

theorem lookup_set (op : OperatorMap K V) (k : K) (v : V) (k' : K) :
    lookup (set op k v) k'
      = if CoeffLike.isZero v then
          (if k' = k then none else lookup op k')
        else (if k' = k then some v else lookup op k') := by
  by_cases hz : CoeffLike.isZero v
  · rw [set, if_pos hz, if_pos hz, lookup_remove]
  · rw [set, if_neg hz, if_neg hz]
    by_cases hk : k' = k
    · simp [lookup, hk]
    · have hne : k ≠ k' := fun he => hk he.symm
      simp only [lookup, hne, if_false, lookup_remove, hk, if_false]

theorem keys_set_nodup {op : OperatorMap K V} (h : wf op) (k : K) (v : V) :
    (keys (set op k v)).Nodup := by
  by_cases hz : CoeffLike.isZero v
  · rw [set, if_pos hz]
    exact (wf_remove h k).1
  · rw [set, if_neg hz]
    simp only [keys, List.map_cons, List.nodup_cons]
    constructor
    · intro hmem
      simp only [List.mem_map] at hmem
      obtain ⟨kv, hkv, hfst⟩ := hmem
      exact (mem_remove.mp hkv).2 hfst
    · exact (wf_remove h k).1

theorem wf_set {op : OperatorMap K V} (h : wf op) (k : K) (v : V)
    (hv : CoeffLike.isZero v = true → False) : wf (set op k v) := by
  refine ⟨keys_set_nodup h k v, ?_⟩
  intro kv hm
  by_cases hz : CoeffLike.isZero v
  · exact absurd hz hv
  · rw [set, if_neg hz] at hm
    rcases List.mem_cons.mp hm with h1 | h1
    · rw [h1]
      exact Bool.eq_false_iff.mpr hz
    · exact (wf_remove h k).2 kv h1

theorem wf_set_all {op : OperatorMap K V} (h : wf op) (k : K) (v : V) :
    wf (set op k v) := by
  by_cases hz : CoeffLike.isZero v
  · rw [set, if_pos hz]
    exact wf_remove h k
  · exact wf_set h k v (fun hc => absurd hc hz)

theorem get_eq (op : OperatorMap K V) (k : K) :
    get op k = (lookup op k).getD CoeffLike.zero := by
  unfold get
  cases lookup op k <;> rfl

theorem wf_addOperatorProduct {op : OperatorMap K V} (h : wf op)
    (k : K) (v : V) : wf (addOperatorProduct op k v) :=
  wf_set_all h k _

end OperatorMap

theorem natChars_ne_nil (n : ℕ) : natChars n ≠ [] := by
  unfold natChars
  by_cases h : n = 0
  · simp [h]
  · simp only [h, if_false]
    intro hc
    rw [List.reverse_eq_nil_iff, List.map_eq_nil_iff] at hc
    exact Nat.digits_ne_nil_iff_ne_zero.mpr h hc

theorem natChars_isDigit (n : ℕ) : ∀ c ∈ natChars n, c.isDigit = true := by
  unfold natChars
  by_cases h : n = 0
  · simp only [h, if_true]
    intro c hc
    rw [List.mem_singleton] at hc
    rw [hc]
    decide
  · simp only [h, if_false]
    intro c hc
    rw [List.mem_reverse, List.mem_map] at hc
    obtain ⟨d, hd, hdc⟩ := hc
    have hlt : d < 10 := Nat.digits_lt_base (by norm_num) hd
    rw [← hdc]
    interval_cases d <;> decide

theorem charDigit_digitChar {d : ℕ} (h : d < 10) :
    charDigit (Nat.digitChar d) = d := by
  interval_cases d <;> rfl

theorem digitsVal_natChars (n : ℕ) : digitsVal (natChars n) = n := by
  unfold digitsVal natChars
  by_cases h : n = 0
  · subst h; rfl
  · simp only [h, if_false, List.map_reverse, List.reverse_reverse]
    rw [List.map_map]
    have hmap : (Nat.digits 10 n).map (charDigit ∘ Nat.digitChar)
        = Nat.digits 10 n := by
      conv_rhs => rw [← List.map_id (Nat.digits 10 n)]
      apply List.map_congr_left
      intro d hd
      exact charDigit_digitChar (Nat.digits_lt_base (by norm_num) hd)
    rw [hmap]
    exact Nat.ofDigits_digits 10 n

theorem takeDigits_append {ds rest : List Char}
    (hds : ∀ c ∈ ds, c.isDigit = true)
    (hrest : ∀ c, rest.head? = some c → c.isDigit = false) :
    takeDigits (ds ++ rest) = (ds, rest) := by
  induction ds with
  | nil =>
    cases rest with
    | nil => rfl
    | cons c cs =>
      have := hrest c rfl
      simp [takeDigits, this]
  | cons d ds' ih =>
    have hd : d.isDigit = true := hds d (List.mem_cons_self d ds')
    simp only [List.cons_append, takeDigits, hd, if_true]
    have := ih (fun c hc => hds c (List.mem_cons_of_mem d hc))
    rw [show ds'.append rest = ds' ++ rest from rfl, this]

theorem parseNat_append {rest : List Char} (n : ℕ)
    (hrest : ∀ c, rest.head? = some c → c.isDigit = false) :
    parseNat (natChars n ++ rest) = some (n, rest) := by
  unfold parseNat
  rw [takeDigits_append (natChars_isDigit n) hrest]
  simp only [List.isEmpty_iff]
  rw [if_neg (natChars_ne_nil n)]
  rw [digitsVal_natChars]

theorem parseTagRun_append {tag : Char} (htag : tag.isDigit = false)
    (ns : List ℕ) {rest : List Char}
    (hrd : ∀ c, rest.head? = some c → c.isDigit = false)
    (hrt : ∀ c, rest.head? = some c → c ≠ tag) :
    parseTagRun tag ((ns.map (fun i => tag :: natChars i)).flatten ++ rest)
      = some (ns, rest) := by
  induction ns with
  | nil =>
    simp only [List.map_nil, List.flatten_nil, List.nil_append]
    cases rest with
    | nil => rw [parseTagRun]
    | cons c cs =>
      have := hrt c rfl
      rw [parseTagRun, if_neg this]
  | cons i ns' ih =>
    simp only [List.map_cons, List.flatten_cons, List.cons_append,
      List.append_assoc]
    have hmid : ∀ c,
        ((ns'.map (fun i => tag :: natChars i)).flatten ++ rest).head? = some c
          → c.isDigit = false := by
      intro c hc
      cases ns' with
      | nil => exact hrd c (by simpa using hc)
      | cons j ns'' =>
        simp only [List.map_cons, List.flatten_cons, List.cons_append,
          List.head?_cons, Option.some.injEq] at hc
        rw [← hc]
        exact htag
    rw [parseTagRun, if_pos rfl, parseNat_append i hmid]
    simp [ih]

theorem flatten_tagged_head {α : Type} {tag : Char} {f : α → List Char}
    (ns : List α) (rest : List Char) (c : Char)
    (hc : ((ns.map (fun i => tag :: f i)).flatten ++ rest).head? = some c) :
    c = tag ∨ rest.head? = some c := by
  cases ns with
  | nil => right; simpa using hc
  | cons i ns' =>
    left
    simp only [List.map_cons, List.flatten_cons, List.cons_append,
      List.head?_cons, Option.some.injEq] at hc
    exact hc.symm

theorem parseCA_fmt (cr an : List ℕ) :
    parseCA (caChars cr an) = some (cr, an) := by
  by_cases hboth : cr.isEmpty && an.isEmpty
  · simp only [Bool.and_eq_true, List.isEmpty_iff] at hboth
    obtain ⟨h1, h2⟩ := hboth
    subst h1; subst h2
    rfl
  · unfold caChars
    rw [if_neg (by simpa using hboth)]
    set cjoin := (cr.map (fun i => 'c' :: natChars i)).flatten with hcj
    set ajoin := (an.map (fun i => 'a' :: natChars i)).flatten with haj
    have hhead : ∀ c, (cjoin ++ ajoin).head? = some c → (c = 'c' ∨ c = 'a') := by
      intro c hc
      rcases flatten_tagged_head cr ajoin c hc with h | h
      · exact Or.inl h
      · rcases flatten_tagged_head an [] c (by simpa using h) with h2 | h2
        · exact Or.inr h2
        · simp at h2
    have hne : cjoin ++ ajoin ≠ ['I'] := by
      intro he
      have : (cjoin ++ ajoin).head? = some 'I' := by rw [he]; rfl
      rcases hhead 'I' this with h | h <;> simp at h
    unfold parseCA
    rw [if_neg hne]
    have haj_head_d : ∀ c, ajoin.head? = some c → c.isDigit = false := by
      intro c hc
      rcases flatten_tagged_head an [] c (by simpa using hc) with h | h
      · rw [h]; decide
      · simp at h
    have haj_head_t : ∀ c, ajoin.head? = some c → c ≠ 'c' := by
      intro c hc
      rcases flatten_tagged_head an [] c (by simpa using hc) with h | h
      · rw [h]; decide
      · simp at h
    rw [parseTagRun_append (by decide) cr haj_head_d haj_head_t]
    have h2 : parseTagRun 'a' (ajoin ++ []) = some (an, []) :=
      parseTagRun_append (by decide) an (by intro c hc; simp at hc)
        (by intro c hc; simp at hc)
    rw [List.append_nil] at h2
    simp [h2]

theorem parseBosonChars_fmt (p : BosonProduct) (h : p.canonical) :
    parseBosonChars p.fmtChars = .ok p := by
  unfold parseBosonChars BosonProduct.fmtChars
  rw [parseCA_fmt]
  exact if_pos h

theorem parseFermionChars_fmt (p : FermionProduct) (h : p.canonical) :
    parseFermionChars p.fmtChars = .ok p := by
  unfold parseFermionChars FermionProduct.fmtChars
  rw [parseCA_fmt]
  exact if_pos h

theorem parseHermitianBosonChars_fmt (p : BosonProduct)
    (h : HermitianBosonProduct.canonical p) :
    parseHermitianBosonChars p.fmtChars = .ok p := by
  unfold parseHermitianBosonChars BosonProduct.fmtChars
  rw [parseCA_fmt]
  exact if_pos h

theorem parseHermitianFermionChars_fmt (p : FermionProduct)
    (h : HermitianFermionProduct.canonical p) :
    parseHermitianFermionChars p.fmtChars = .ok p := by
  unfold parseHermitianFermionChars FermionProduct.fmtChars
  rw [parseCA_fmt]
  exact if_pos h

theorem parseSiteRun_append {σ : Type} {ofChar : Char → Option σ}
    {toChar : σ → Char}
    (hinv : ∀ s, ofChar (toChar s) = some s)
    (hnd : ∀ s, (toChar s).isDigit = false)
    (items : List (ℕ × σ)) {rest : List Char}
    (hrd : ∀ c, rest.head? = some c → c.isDigit = false) :
    parseSiteRun ofChar
        ((items.map (fun it => natChars it.1 ++ [toChar it.2])).flatten ++ rest)
      = some (items, rest) := by
  induction items with
  | nil =>
    simp only [List.map_nil, List.flatten_nil, List.nil_append]
    cases rest with
    | nil => rw [parseSiteRun]
    | cons c cs =>
      have hc := hrd c rfl
      rw [parseSiteRun, if_neg (by simp [hc])]
  | cons it its ih =>
    obtain ⟨i, s⟩ := it
    set X : List Char :=
      (its.map (fun it => natChars it.1 ++ [toChar it.2])).flatten ++ rest
      with hX
    have hrest2 : ∀ c, (toChar s :: X).head? = some c → c.isDigit = false := by
      intro c hc
      simp only [List.head?_cons, Option.some.injEq] at hc
      rw [← hc]
      exact hnd s
    have key : parseSiteRun ofChar (natChars i ++ (toChar s :: X))
        = some ((i, s) :: its, rest) := by
      cases hnc : natChars i with
      | nil => exact absurd hnc (natChars_ne_nil i)
      | cons c cs' =>
        have hcd : c.isDigit = true := by
          apply natChars_isDigit i
          rw [hnc]
          exact List.mem_cons_self c cs'
        rw [List.cons_append, parseSiteRun, if_pos hcd]
        have hpn : parseNat (c :: (cs' ++ (toChar s :: X)))
            = some (i, toChar s :: X) := by
          have hsh : c :: (cs' ++ (toChar s :: X))
              = natChars i ++ (toChar s :: X) := by
            rw [hnc]; rfl
          rw [hsh]
          exact parseNat_append i hrest2
        split
        · rename_i h1
          rw [hpn] at h1
          exact absurd h1 (by simp)
        · rename_i n rest0 h1
          rw [hpn] at h1
          injection h1 with hp
          injection hp with hn hr
          subst hn
          subst hr
          simp [ih, hinv s]
    simpa using key

theorem PauliSymbol.ofChar_char (s : PauliSymbol) :
    PauliSymbol.ofChar s.char = some s := by
  cases s <;> rfl

theorem PauliSymbol.char_not_digit (s : PauliSymbol) :
    s.char.isDigit = false := by
  cases s <;> rfl

theorem pauli_fmt_head {p : PauliProduct} {c : Char}
    (hne : ¬ p.items.isEmpty)
    (hc : p.fmtChars.head? = some c) : c.isDigit = true := by
  unfold PauliProduct.fmtChars at hc
  rw [if_neg hne] at hc
  cases hit : p.items with
  | nil => rw [hit] at hne; simp at hne
  | cons it its =>
    rw [hit] at hc
    simp only [List.map_cons, List.flatten_cons] at hc
    cases hnc : natChars it.1 with
    | nil => exact absurd hnc (natChars_ne_nil it.1)
    | cons d ds =>
      rw [hnc] at hc
      simp only [List.cons_append, List.head?_cons, Option.some.injEq] at hc
      rw [← hc]
      apply natChars_isDigit it.1
      rw [hnc]
      exact List.mem_cons_self d ds

theorem parsePauliChars_fmt (p : PauliProduct) (h : p.canonical) :
    parsePauliChars p.fmtChars = .ok p := by
  by_cases hemp : p.items.isEmpty
  · have hit : p.items = [] := List.isEmpty_iff.mp hemp
    have hp : p = ⟨[]⟩ := by cases p; simp_all
    subst hp
    rfl
  · have hne : p.fmtChars ≠ ['I'] := by
      intro he
      have : p.fmtChars.head? = some 'I' := by rw [he]; rfl
      have := pauli_fmt_head hemp this
      simp at this
    unfold parsePauliChars
    rw [if_neg hne]
    unfold PauliProduct.fmtChars
    rw [if_neg hemp]
    have hrun := @parseSiteRun_append PauliSymbol PauliSymbol.ofChar
      PauliSymbol.char PauliSymbol.ofChar_char
      PauliSymbol.char_not_digit p.items []
      (by intro c hc; simp at hc)
    rw [List.append_nil] at hrun
    rw [hrun]
    simp only [List.isEmpty_nil, if_true]
    rw [if_pos h]

theorem takeWhile_no_colon (rest : List Char) :
    ∀ (l : List Char), ':' ∉ l →
      List.takeWhile (fun c => c ≠ ':') (l ++ ':' :: rest) = l := by
  intro l
  induction l with
  | nil =>
    intro _
    simp [List.takeWhile]
  | cons b bs ih =>
    intro hl
    have hb : b ≠ ':' := fun he => hl (he ▸ List.mem_cons_self b bs)
    simp only [List.cons_append, List.takeWhile_cons]
    rw [if_pos (by simpa using hb),
      ih (fun hm => hl (List.mem_cons_of_mem b hm))]

theorem dropWhile_no_colon (rest : List Char) :
    ∀ (l : List Char), ':' ∉ l →
      List.dropWhile (fun c => c ≠ ':') (l ++ ':' :: rest) = ':' :: rest := by
  intro l
  induction l with
  | nil =>
    intro _
    simp [List.dropWhile]
  | cons b bs ih =>
    intro hl
    have hb : b ≠ ':' := fun he => hl (he ▸ List.mem_cons_self b bs)
    simp only [List.cons_append, List.dropWhile_cons]
    rw [if_pos (by simpa using hb)]
    exact ih (fun hm => hl (List.mem_cons_of_mem b hm))

theorem takeToColon_append (body rest : List Char) (h : ':' ∉ body) :
    takeToColon (body ++ ':' :: rest) = some (body, rest) := by
  have hmem : ':' ∈ body ++ ':' :: rest :=
    List.mem_append.mpr (Or.inr (List.mem_cons_self _ _))
  unfold takeToColon
  rw [if_pos hmem, takeWhile_no_colon rest body h, dropWhile_no_colon rest body h]
  rfl

theorem parseSegRun_append (tag : Char) (segs : List (List Char))
    (hnc : ∀ seg ∈ segs, ':' ∉ seg) {rest : List Char}
    (hrt : ∀ c, rest.head? = some c → c ≠ tag) :
    parseSegRun tag ((segs.map (fun b => tag :: (b ++ [':']))).flatten ++ rest)
      = some (segs, rest) := by
  induction segs with
  | nil =>
    simp only [List.map_nil, List.flatten_nil, List.nil_append]
    cases rest with
    | nil => rw [parseSegRun]
    | cons c cs =>
      have := hrt c rfl
      rw [parseSegRun, if_neg this]
  | cons b bs ih =>
    have hb : ':' ∉ b := hnc b (List.mem_cons_self b bs)
    have hbs : ∀ seg ∈ bs, ':' ∉ seg :=
      fun seg hm => hnc seg (List.mem_cons_of_mem b hm)
    set Y : List Char := (bs.map (fun b => tag :: (b ++ [':']))).flatten ++ rest
      with hY
    have hform : (((b :: bs).map (fun b => tag :: (b ++ [':']))).flatten ++ rest)
        = tag :: (b ++ (':' :: Y)) := by
      simp [hY]
    rw [hform, parseSegRun, if_pos rfl]
    have htc : takeToColon (b ++ ':' :: Y) = some (b, Y) :=
      takeToColon_append b Y hb
    split
    · rename_i h1
      rw [htc] at h1
      exact absurd h1 (by simp)
    · rename_i seg rest0 h1
      rw [htc] at h1
      injection h1 with hp
      injection hp with hs hr
      subst hs
      subst hr
      simp [ih hbs]

theorem caChars_no_colon (cr an : List ℕ) : ':' ∉ caChars cr an := by
  unfold caChars
  by_cases hboth : cr.isEmpty && an.isEmpty
  · rw [if_pos hboth]
    decide
  · rw [if_neg hboth]
    intro hm
    rcases List.mem_append.mp hm with h | h <;>
    · rw [List.mem_flatten] at h
      obtain ⟨seg, hseg, hcs⟩ := h
      rw [List.mem_map] at hseg
      obtain ⟨i, _, hfi⟩ := hseg
      rw [← hfi] at hcs
      rcases List.mem_cons.mp hcs with h2 | h2
      · simp at h2
      · have := natChars_isDigit i ':' h2
        simp at this

theorem pauliFmt_no_colon (p : PauliProduct) : ':' ∉ p.fmtChars := by
  unfold PauliProduct.fmtChars
  by_cases hemp : p.items.isEmpty
  · rw [if_pos hemp]
    decide
  · rw [if_neg hemp]
    intro hm
    rw [List.mem_flatten] at hm
    obtain ⟨seg, hseg, hcs⟩ := hm
    rw [List.mem_map] at hseg
    obtain ⟨it, _, hfi⟩ := hseg
    rw [← hfi] at hcs
    rcases List.mem_append.mp hcs with h2 | h2
    · have := natChars_isDigit it.1 ':' h2
      simp at this
    · rw [List.mem_singleton] at h2
      cases hs : it.2 <;> rw [hs] at h2 <;> simp [PauliSymbol.char] at h2

theorem mapExcept_ok {α β ε : Type} (f : α → Except ε β) (g : β → α)
    (l : List β) (h : ∀ x ∈ l, f (g x) = .ok x) :
    mapExcept f (l.map g) = .ok l := by
  induction l with
  | nil => rfl
  | cons x xs ih =>
    simp only [List.map_cons, mapExcept]
    rw [h x (List.mem_cons_self x xs),
      ih (fun y hy => h y (List.mem_cons_of_mem x hy))]

theorem parseMixedChars_fmt (p : MixedProduct) (h : p.canonical) :
    parseMixedChars p.fmtChars = .ok p := by
  obtain ⟨hsc, hbc, hfc⟩ := h
  have hfmt : p.fmtChars
      = (p.spins.map (fun s => 'S' :: (s.fmtChars ++ [':']))).flatten
        ++ ((p.bosons.map (fun b => 'B' :: (b.fmtChars ++ [':']))).flatten
          ++ (p.fermions.map (fun f => 'F' :: (f.fmtChars ++ [':']))).flatten) := by
    unfold MixedProduct.fmtChars
    rw [List.append_assoc]
  have hcol : ¬ (p.fmtChars.head? = some ':') := by
    rw [hfmt]
    intro he
    rcases flatten_tagged_head p.spins _ ':' he with h1 | h1
    · simp at h1
    · rcases flatten_tagged_head p.bosons _ ':' h1 with h2 | h2
      · simp at h2
      · rcases flatten_tagged_head p.fermions [] ':'
            (by simpa using h2) with h3 | h3
        · simp at h3
        · simp at h3
  have hSrun : parseSegRun 'S'
      ((p.spins.map (fun s => 'S' :: (s.fmtChars ++ [':']))).flatten
        ++ ((p.bosons.map (fun b => 'B' :: (b.fmtChars ++ [':']))).flatten
          ++ (p.fermions.map (fun f => 'F' :: (f.fmtChars ++ [':']))).flatten))
      = some (p.spins.map PauliProduct.fmtChars,
          (p.bosons.map (fun b => 'B' :: (b.fmtChars ++ [':']))).flatten
            ++ (p.fermions.map (fun f => 'F' :: (f.fmtChars ++ [':']))).flatten) := by
    have hseg : ∀ seg ∈ p.spins.map PauliProduct.fmtChars, ':' ∉ seg := by
      intro seg hm
      rw [List.mem_map] at hm
      obtain ⟨s, _, hfs⟩ := hm
      rw [← hfs]
      exact pauliFmt_no_colon s
    have hrt : ∀ c, ((p.bosons.map (fun b => 'B' :: (b.fmtChars ++ [':']))).flatten
          ++ (p.fermions.map (fun f => 'F' :: (f.fmtChars ++ [':']))).flatten).head?
          = some c → c ≠ 'S' := by
      intro c hc
      rcases flatten_tagged_head p.bosons _ c hc with h1 | h1
      · rw [h1]; decide
      · rcases flatten_tagged_head p.fermions [] c (by simpa using h1) with h2 | h2
        · rw [h2]; decide
        · simp at h2
    have := parseSegRun_append 'S' (p.spins.map PauliProduct.fmtChars) hseg hrt
    rw [List.map_map] at this
    exact this
  have hBrun : parseSegRun 'B'
      ((p.bosons.map (fun b => 'B' :: (b.fmtChars ++ [':']))).flatten
        ++ (p.fermions.map (fun f => 'F' :: (f.fmtChars ++ [':']))).flatten)
      = some (p.bosons.map BosonProduct.fmtChars,
          (p.fermions.map (fun f => 'F' :: (f.fmtChars ++ [':']))).flatten) := by
    have hseg : ∀ seg ∈ p.bosons.map BosonProduct.fmtChars, ':' ∉ seg := by
      intro seg hm
      rw [List.mem_map] at hm
      obtain ⟨b, _, hfs⟩ := hm
      rw [← hfs]
      exact caChars_no_colon b.creators b.annihilators
    have hrt : ∀ c, ((p.fermions.map (fun f => 'F' :: (f.fmtChars ++ [':']))).flatten).head?
          = some c → c ≠ 'B' := by
      intro c hc
      rcases flatten_tagged_head p.fermions [] c (by simpa using hc) with h1 | h1
      · rw [h1]; decide
      · simp at h1
    have := parseSegRun_append 'B' (p.bosons.map BosonProduct.fmtChars) hseg hrt
    rw [List.map_map] at this
    exact this
  have hFrun : parseSegRun 'F'
      ((p.fermions.map (fun f => 'F' :: (f.fmtChars ++ [':']))).flatten)
      = some (p.fermions.map FermionProduct.fmtChars, []) := by
    have hseg : ∀ seg ∈ p.fermions.map FermionProduct.fmtChars, ':' ∉ seg := by
      intro seg hm
      rw [List.mem_map] at hm
      obtain ⟨f, _, hfs⟩ := hm
      rw [← hfs]
      exact caChars_no_colon f.creators f.annihilators
    have := @parseSegRun_append 'F' (p.fermions.map FermionProduct.fmtChars)
      hseg [] (by intro c hc; simp at hc)
    rw [List.map_map, List.append_nil] at this
    exact this
  unfold parseMixedChars
  simp only [if_neg hcol]
  rw [hfmt, hSrun]
  simp only [hBrun, hFrun, List.isEmpty_nil, if_true]
  rw [mapExcept_ok parsePauliChars PauliProduct.fmtChars p.spins
      (fun x hx => parsePauliChars_fmt x (hsc x hx)),
    mapExcept_ok parseBosonChars BosonProduct.fmtChars p.bosons
      (fun x hx => parseBosonChars_fmt x (hbc x hx)),
    mapExcept_ok parseFermionChars FermionProduct.fmtChars p.fermions
      (fun x hx => parseFermionChars_fmt x (hfc x hx))]

theorem FermionProduct.conjSign_swap (p : FermionProduct) :
    FermionProduct.conjSign ⟨p.annihilators, p.creators⟩ = p.conjSign := by
  simp [FermionProduct.conjSign, Nat.add_comm]

theorem FermionProduct.conjSign_mul_self (p : FermionProduct) :
    p.conjSign * p.conjSign = 1 := by
  unfold FermionProduct.conjSign
  rw [← pow_add, ← two_mul, pow_mul]
  norm_num

theorem fermionList_conjSign_sq (l : List FermionProduct) :
    (l.map (fun f => f.hermitianConjugate.2)).prod
      * ((l.map (fun f => f.hermitianConjugate.1)).map
          (fun f => f.hermitianConjugate.2)).prod = 1 := by
  induction l with
  | nil => rfl
  | cons f fs ih =>
    simp only [List.map_cons, List.prod_cons]
    have h1 : (FermionProduct.hermitianConjugate f).2 = f.conjSign := rfl
    have h2 : ((FermionProduct.hermitianConjugate f).1).hermitianConjugate.2
        = f.conjSign := by
      show FermionProduct.conjSign ⟨f.annihilators, f.creators⟩ = f.conjSign
      exact FermionProduct.conjSign_swap f
    rw [h1, h2, mul_mul_mul_comm,
      FermionProduct.conjSign_mul_self f, one_mul, ih]

/-- C2: multiplying the single-site Pauli product Z on site 0 by the
single-site Pauli product X on site 0 yields exactly one term, Y on site 0
with coefficient -i. -/
theorem claim_C2_pauli_z0_mul_x0 :
    PauliProduct.multiply (PauliProduct.one.z 0) (PauliProduct.one.x 0)
      = [(PauliProduct.one.y 0, CalculatorComplex.ofRat 0 (-1))] := by
  simp [PauliProduct.multiply, mulPauliItems, PauliProduct.one, PauliProduct.z,
    PauliProduct.x, PauliProduct.y, PauliSymbol.mulTable, Cq.mul,
    CalculatorComplex.ofRat]

/-- C6: for every product of every product type (Pauli, boson, fermion,
mixed, and the Hermitian variants), applying hermitian_conjugate twice
returns the original product, and the product of the two returned signs is
+1. -/
theorem claim_C6_hermitian_conjugate_involution :
    (∀ p : PauliProduct,
      (p.hermitianConjugate.1).hermitianConjugate.1 = p
        ∧ p.hermitianConjugate.2 * (p.hermitianConjugate.1).hermitianConjugate.2 = 1)
    ∧ (∀ p : BosonProduct,
      (p.hermitianConjugate.1).hermitianConjugate.1 = p
        ∧ p.hermitianConjugate.2 * (p.hermitianConjugate.1).hermitianConjugate.2 = 1)
    ∧ (∀ p : FermionProduct,
      (p.hermitianConjugate.1).hermitianConjugate.1 = p
        ∧ p.hermitianConjugate.2 * (p.hermitianConjugate.1).hermitianConjugate.2 = 1)
    ∧ (∀ p : MixedProduct,
      (p.hermitianConjugate.1).hermitianConjugate.1 = p
        ∧ p.hermitianConjugate.2 * (p.hermitianConjugate.1).hermitianConjugate.2 = 1)
    ∧ (∀ p : BosonProduct,
      ((HermitianBosonProduct.hermitianConjugate
        (HermitianBosonProduct.hermitianConjugate p).1).1 = p)
        ∧ (HermitianBosonProduct.hermitianConjugate p).2
          * (HermitianBosonProduct.hermitianConjugate
              (HermitianBosonProduct.hermitianConjugate p).1).2 = 1)
    ∧ (∀ p : FermionProduct,
      ((HermitianFermionProduct.hermitianConjugate
        (HermitianFermionProduct.hermitianConjugate p).1).1 = p)
        ∧ (HermitianFermionProduct.hermitianConjugate p).2
          * (HermitianFermionProduct.hermitianConjugate
              (HermitianFermionProduct.hermitianConjugate p).1).2 = 1) := by
  refine ⟨fun p => ⟨rfl, rfl⟩, fun p => ⟨rfl, rfl⟩, fun p => ⟨rfl, ?_⟩,
    fun p => ⟨?_, ?_⟩, fun p => ⟨rfl, rfl⟩, fun p => ⟨rfl, rfl⟩⟩
  · show p.conjSign * FermionProduct.conjSign ⟨p.annihilators, p.creators⟩ = 1
    rw [FermionProduct.conjSign_swap]
    exact FermionProduct.conjSign_mul_self p
  · have hbw : ∀ (l : List BosonProduct),
        (l.map (fun x => x.hermitianConjugate.1)).map
          (fun x => x.hermitianConjugate.1) = l := by
      intro l
      rw [List.map_map]
      conv_rhs => rw [← List.map_id l]
      apply List.map_congr_left
      intro x _
      rfl
    have hfw : ∀ (l : List FermionProduct),
        (l.map (fun x => x.hermitianConjugate.1)).map
          (fun x => x.hermitianConjugate.1) = l := by
      intro l
      rw [List.map_map]
      conv_rhs => rw [← List.map_id l]
      apply List.map_congr_left
      intro x _
      rfl
    cases p with
    | mk s b f =>
      show MixedProduct.mk s ((b.map _).map _) ((f.map _).map _)
        = MixedProduct.mk s b f
      rw [hbw b, hfw f]
  · show (p.fermions.map (fun f => f.hermitianConjugate.2)).prod
        * ((p.fermions.map (fun f => f.hermitianConjugate.1)).map
            (fun f => f.hermitianConjugate.2)).prod = 1
    exact fermionList_conjSign_sq p.fermions

/-- C7: for every product type, formatting a canonical product and parsing
the canonical text back returns exactly the original product, so
format(create(t)) == t for already-canonical text t. -/
theorem claim_C7_text_round_trip :
    (∀ p : PauliProduct, p.canonical →
      parsePauliChars p.fmtChars = .ok p)
    ∧ (∀ p : BosonProduct, p.canonical →
      parseBosonChars p.fmtChars = .ok p)
    ∧ (∀ p : FermionProduct, p.canonical →
      parseFermionChars p.fmtChars = .ok p)
    ∧ (∀ p : MixedProduct, p.canonical →
      parseMixedChars p.fmtChars = .ok p)
    ∧ (∀ p : BosonProduct, HermitianBosonProduct.canonical p →
      parseHermitianBosonChars p.fmtChars = .ok p)
    ∧ (∀ p : FermionProduct, HermitianFermionProduct.canonical p →
      parseHermitianFermionChars p.fmtChars = .ok p) :=
  ⟨parsePauliChars_fmt, parseBosonChars_fmt, parseFermionChars_fmt,
    parseMixedChars_fmt, parseHermitianBosonChars_fmt,
    parseHermitianFermionChars_fmt⟩

/-- Witness for C7 at the concrete canonical text forms of the tests:
"0Z" (Pauli), "c0a1" (boson), "c0a0" (fermion) and "S0Z:Bc0a1:Fc0a0:"
(mixed). -/
theorem claim_C7_text_round_trip_witness :
    parsePauliChars (PauliProduct.fmtChars ⟨[(0, .Z)]⟩) = .ok ⟨[(0, .Z)]⟩
    ∧ parseBosonChars (BosonProduct.fmtChars ⟨[0], [1]⟩) = .ok ⟨[0], [1]⟩
    ∧ parseFermionChars (FermionProduct.fmtChars ⟨[0], [0]⟩) = .ok ⟨[0], [0]⟩
    ∧ parseMixedChars (MixedProduct.fmtChars
        ⟨[⟨[(0, .Z)]⟩], [⟨[0], [1]⟩], [⟨[0], [0]⟩]⟩)
      = .ok ⟨[⟨[(0, .Z)]⟩], [⟨[0], [1]⟩], [⟨[0], [0]⟩]⟩
    ∧ parseHermitianBosonChars (BosonProduct.fmtChars ⟨[0], [1]⟩)
      = .ok ⟨[0], [1]⟩
    ∧ parseHermitianFermionChars (FermionProduct.fmtChars ⟨[0], [1]⟩)
      = .ok ⟨[0], [1]⟩ :=
  ⟨claim_C7_text_round_trip.1 ⟨[(0, .Z)]⟩ (by decide),
    claim_C7_text_round_trip.2.1 ⟨[0], [1]⟩ (by decide),
    claim_C7_text_round_trip.2.2.1 ⟨[0], [0]⟩ (by decide),
    claim_C7_text_round_trip.2.2.2.1 ⟨[⟨[(0, .Z)]⟩], [⟨[0], [1]⟩], [⟨[0], [0]⟩]⟩
      (by constructor
          · intro s hs
            rw [List.mem_singleton] at hs
            rw [hs]
            decide
          · constructor
            · intro b hb
              rw [List.mem_singleton] at hb
              rw [hb]
              decide
            · intro f hf
              rw [List.mem_singleton] at hf
              rw [hf]
              decide),
    claim_C7_text_round_trip.2.2.2.2.1 ⟨[0], [1]⟩ (by decide),
    claim_C7_text_round_trip.2.2.2.2.2 ⟨[0], [1]⟩ (by decide)⟩

theorem applyMutOps_wf {K V : Type} [DecidableEq K] [CoeffLike V]
    (steps : List (MutOp K V)) :
    ∀ (op : OperatorMap K V), OperatorMap.wf op →
      OperatorMap.wf (applyMutOps op steps) := by
  induction steps with
  | nil => exact fun op h => h
  | cons st rest ih =>
    intro op h
    refine ih (applyMutOp op st) ?_
    cases st with
    | setOp k v => exact OperatorMap.wf_set_all h k v
    | addOp k v => exact OperatorMap.wf_addOperatorProduct h k v
    | removeOp k => exact OperatorMap.wf_remove h k

theorem wf_empty {K V : Type} [DecidableEq K] [CoeffLike V] :
    OperatorMap.wf (OperatorMap.empty : OperatorMap K V) := by
  constructor
  · simp [OperatorMap.keys, OperatorMap.empty]
  · intro kv hm
    simp [OperatorMap.empty] at hm

/-- C4: add_operator_product accumulates old + c at p (removing the key
when the sum is exact zero), and no sequence of container operations ever
leaves an exact-zero coefficient stored. -/
theorem claim_C4_add_operator_product_accumulates :
    (∀ {K V : Type} [DecidableEq K] [CoeffLike V]
      (op : OperatorMap K V) (p : K) (c : V), OperatorMap.wf op →
      (CoeffLike.isZero (CoeffLike.add (OperatorMap.get op p) c) = true →
        p ∉ OperatorMap.keys (OperatorMap.addOperatorProduct op p c))
      ∧ (CoeffLike.isZero (CoeffLike.add (OperatorMap.get op p) c) = false →
        OperatorMap.lookup (OperatorMap.addOperatorProduct op p c) p
          = some (CoeffLike.add (OperatorMap.get op p) c))
      ∧ OperatorMap.wf (OperatorMap.addOperatorProduct op p c))
    ∧ (∀ {K V : Type} [DecidableEq K] [CoeffLike V]
        (steps : List (MutOp K V)),
        ∀ kv ∈ applyMutOps OperatorMap.empty steps,
          CoeffLike.isZero kv.2 = false) := by
  constructor
  · intro K V instK instV op p c hwf
    refine ⟨?_, ?_, OperatorMap.wf_addOperatorProduct hwf p c⟩
    · intro hz
      rw [← OperatorMap.lookup_eq_none]
      unfold OperatorMap.addOperatorProduct
      rw [OperatorMap.lookup_set, if_pos hz, if_pos rfl]
    · intro hnz
      unfold OperatorMap.addOperatorProduct
      rw [OperatorMap.lookup_set, if_neg (by rw [hnz]; exact Bool.false_ne_true),
        if_pos rfl]
  · intro K V instK instV steps kv hm
    exact (applyMutOps_wf steps OperatorMap.empty wf_empty).2 kv hm

/-- Witness for C4 on a one-entry natural-number-keyed container: adding
the exact negative cancels the entry and removes the key; adding a
non-cancelling value stores the sum. -/
theorem claim_C4_add_operator_product_accumulates_witness :
    ((0 : ℕ) ∉ OperatorMap.keys (OperatorMap.addOperatorProduct
        [((0 : ℕ), CalculatorComplex.ofRat 1 0)] 0 (CalculatorComplex.ofRat (-1) 0)))
    ∧ OperatorMap.lookup (OperatorMap.addOperatorProduct
        [((0 : ℕ), CalculatorComplex.ofRat 1 0)] 0 (CalculatorComplex.ofRat 2 0)) 0
      = some (CalculatorComplex.ofRat 3 0)
    ∧ OperatorMap.wf (OperatorMap.addOperatorProduct
        [((0 : ℕ), CalculatorComplex.ofRat 1 0)] 0 (CalculatorComplex.ofRat 2 0))
    ∧ (∀ kv ∈ applyMutOps OperatorMap.empty
        [MutOp.addOp (0 : ℕ) (CalculatorComplex.ofRat 1 0),
          MutOp.addOp 0 (CalculatorComplex.ofRat (-1) 0)],
        CoeffLike.isZero kv.2 = false) := by
  have hwf : OperatorMap.wf [((0 : ℕ), CalculatorComplex.ofRat 1 0)] := by
    simp [OperatorMap.wf, OperatorMap.keys, CoeffLike.isZero,
      CalculatorComplex.isZero, CalculatorComplex.ofRat, CalculatorFloat.isZero]
  refine ⟨?_, ?_, ?_, ?_⟩
  · exact (claim_C4_add_operator_product_accumulates.1
      [((0 : ℕ), CalculatorComplex.ofRat 1 0)] 0 (CalculatorComplex.ofRat (-1) 0)
      hwf).1
      (by simp [OperatorMap.get, OperatorMap.lookup, CoeffLike.add,
        CoeffLike.isZero, CalculatorComplex.add, CalculatorComplex.isZero,
        CalculatorComplex.ofRat, CalculatorFloat.add, CalculatorFloat.isZero])
  · have h := (claim_C4_add_operator_product_accumulates.1
      [((0 : ℕ), CalculatorComplex.ofRat 1 0)] 0 (CalculatorComplex.ofRat 2 0)
      hwf).2.1
      (by simp [OperatorMap.get, OperatorMap.lookup, CoeffLike.add,
          CoeffLike.isZero, CalculatorComplex.add, CalculatorComplex.isZero,
          CalculatorComplex.ofRat, CalculatorFloat.add, CalculatorFloat.isZero]
          <;> norm_num)
    rw [h]
    have heq : CoeffLike.add
        (OperatorMap.get [((0 : ℕ), CalculatorComplex.ofRat 1 0)] 0)
        (CalculatorComplex.ofRat 2 0) = CalculatorComplex.ofRat 3 0 := by
      simp [OperatorMap.get, OperatorMap.lookup, CoeffLike.add,
        CalculatorComplex.add, CalculatorComplex.ofRat, CalculatorFloat.add]
      norm_num
    rw [heq]
  · exact (claim_C4_add_operator_product_accumulates.1
      [((0 : ℕ), CalculatorComplex.ofRat 1 0)] 0 (CalculatorComplex.ofRat 2 0)
      hwf).2.2
  · exact claim_C4_add_operator_product_accumulates.2
      [MutOp.addOp (0 : ℕ) (CalculatorComplex.ofRat 1 0),
        MutOp.addOp 0 (CalculatorComplex.ofRat (-1) 0)]

/-- C5: get on a syntactically valid canonical key returns the stored
coefficient, or the exact-zero coefficient when absent, and never an
error; get through unparseable key text returns the parse error rather
than zero. -/
theorem claim_C5_get_total_or_parse_error :
    (∀ (op : OperatorMap BosonProduct CalculatorComplex) (p : BosonProduct),
      (OperatorMap.lookup op p = none →
        OperatorMap.get op p = CalculatorComplex.zero)
      ∧ (∀ v, OperatorMap.lookup op p = some v → OperatorMap.get op p = v))
    ∧ (∀ (op : OperatorMap BosonProduct CalculatorComplex) (s : String) (e : String),
      parseBosonChars s.toList = .error e →
        OperatorMap.getByStr op s = .error e)
    ∧ (∀ (op : OperatorMap BosonProduct CalculatorComplex) (s : String)
        (p : BosonProduct),
      parseBosonChars s.toList = .ok p →
        OperatorMap.getByStr op s = .ok (OperatorMap.get op p)) := by
  refine ⟨?_, ?_, ?_⟩
  · intro op p
    constructor
    · intro hn
      rw [OperatorMap.get_eq, hn]
      rfl
    · intro v hv
      rw [OperatorMap.get_eq, hv]
      rfl
  · intro op s e he
    unfold OperatorMap.getByStr
    rw [he]
  · intro op s p hp
    unfold OperatorMap.getByStr
    rw [hp]

/-- Witness for C5: on the container holding only c0a0 with coefficient
one half, getting absent-but-valid "a2" yields the zero coefficient, the
stored key text yields the stored value, and the unparseable key text "j2"
yields an error. -/
theorem claim_C5_get_total_or_parse_error_witness :
    OperatorMap.get [((⟨[0], [0]⟩ : BosonProduct), CalculatorComplex.ofRat (1/2) 0)]
        (⟨[], [2]⟩ : BosonProduct) = CalculatorComplex.zero
    ∧ OperatorMap.get [((⟨[0], [0]⟩ : BosonProduct), CalculatorComplex.ofRat (1/2) 0)]
        (⟨[0], [0]⟩ : BosonProduct) = CalculatorComplex.ofRat (1/2) 0
    ∧ OperatorMap.getByStr
        [((⟨[0], [0]⟩ : BosonProduct), CalculatorComplex.ofRat (1/2) 0)] "j2"
      = .error "Input cannot be parsed as a BosonProduct"
    ∧ OperatorMap.getByStr
        [((⟨[0], [0]⟩ : BosonProduct), CalculatorComplex.ofRat (1/2) 0)] "a2"
      = .ok CalculatorComplex.zero := by
  refine ⟨?_, ?_, ?_, ?_⟩
  · exact (claim_C5_get_total_or_parse_error.1
      [((⟨[0], [0]⟩ : BosonProduct), CalculatorComplex.ofRat (1/2) 0)]
      ⟨[], [2]⟩).1 (by simp [OperatorMap.lookup])
  · exact (claim_C5_get_total_or_parse_error.1
      [((⟨[0], [0]⟩ : BosonProduct), CalculatorComplex.ofRat (1/2) 0)]
      ⟨[0], [0]⟩).2 (CalculatorComplex.ofRat (1/2) 0) (by simp [OperatorMap.lookup])
  · exact claim_C5_get_total_or_parse_error.2.1
      [((⟨[0], [0]⟩ : BosonProduct), CalculatorComplex.ofRat (1/2) 0)] "j2"
      "Input cannot be parsed as a BosonProduct"
      (by simp [parseBosonChars, parseCA, parseTagRun, parseNat, takeDigits])
  · have h := claim_C5_get_total_or_parse_error.2.2
      [((⟨[0], [0]⟩ : BosonProduct), CalculatorComplex.ofRat (1/2) 0)] "a2"
      ⟨[], [2]⟩
      (by simp [parseBosonChars, parseCA, parseTagRun, parseNat, takeDigits,
        digitsVal, charDigit, BosonProduct.canonical, chainLeB])
    rw [h]
    simp [OperatorMap.get, OperatorMap.lookup]
    rfl

/-- C1: on a System with declared capacity, a product exceeding the
capacity makes both set and add_operator_product fail with
NumberModesExceeded (the spec's CapacityExceeded), the stored state being
returned untouched. -/
theorem claim_C1_capacity_exceeded_no_mutation :
    ∀ {K V : Type} [DecidableEq K] [CoeffLike V] (cnm : K → ℕ)
      (s : SystemOf K V) (N : ℕ) (p : K) (v : V),
      s.capacity = some N → N < cnm p →
      (SystemOf.set cnm s p v).1 = .error .NumberModesExceeded
      ∧ (SystemOf.set cnm s p v).2 = s
      ∧ (SystemOf.addOperatorProduct cnm s p v).1 = .error .NumberModesExceeded
      ∧ (SystemOf.addOperatorProduct cnm s p v).2 = s := by
  intro K V instK instV cnm s N p v hcap hlt
  have hnot : ¬ cnm p ≤ N := by omega
  unfold SystemOf.set SystemOf.addOperatorProduct
  rw [hcap]
  simp [hnot]

/-- Witness for C1 at the test scenario: a boson system of declared
capacity 1 rejects the product c0a2 (highest referenced mode 2) from both
set and add_operator_product, unchanged. -/
theorem claim_C1_capacity_exceeded_no_mutation_witness :
    (BosonSystem.set (SystemOf.new (some 1)) ⟨[0], [2]⟩
        (CalculatorComplex.ofRat (1/2) 0)).1 = .error .NumberModesExceeded
    ∧ (BosonSystem.set (SystemOf.new (some 1)) ⟨[0], [2]⟩
        (CalculatorComplex.ofRat (1/2) 0)).2 = SystemOf.new (some 1)
    ∧ (BosonSystem.addOperatorProduct (SystemOf.new (some 1)) ⟨[0], [2]⟩
        (CalculatorComplex.ofRat (1/2) 0)).1 = .error .NumberModesExceeded
    ∧ (BosonSystem.addOperatorProduct (SystemOf.new (some 1)) ⟨[0], [2]⟩
        (CalculatorComplex.ofRat (1/2) 0)).2 = SystemOf.new (some 1) := by
  have h := claim_C1_capacity_exceeded_no_mutation
    BosonProduct.currentNumberModes (SystemOf.new (some 1)) 1 ⟨[0], [2]⟩
    (CalculatorComplex.ofRat (1/2) 0) rfl (by decide)
  exact ⟨h.1, h.2.1, h.2.2.1, h.2.2.2⟩

theorem lookup_filterKey {K V : Type} [DecidableEq K] [CoeffLike V]
    (op : OperatorMap K V) (q : K → Bool) (k : K) :
    OperatorMap.lookup
        ((op : List (K × V)).filter (fun kv => q kv.1)) k
      = if q k then OperatorMap.lookup op k else none := by
  induction op with
  | nil => cases hq : q k <;> simp [OperatorMap.lookup, hq]
  | cons kv rest ih =>
    by_cases h1 : kv.1 = k
    · rw [List.filter_cons]
      by_cases hq : q kv.1
      · rw [if_pos (by simpa using hq)]
        rw [h1] at hq
        simp [OperatorMap.lookup, h1, hq]
      · have hqk : ¬ (q k = true) := by rw [← h1]; exact hq
        rw [if_neg (by simpa using hq), ih, if_neg hqk, if_neg hqk]
    · rw [List.filter_cons]
      by_cases hq : q kv.1
      · rw [if_pos (by simpa using hq)]
        simp only [OperatorMap.lookup, h1, if_false]
        rw [ih]
      · rw [if_neg (by simpa using hq), ih]
        by_cases hqk : q k
        · simp only [OperatorMap.lookup, h1, if_false, if_pos hqk]
        · simp [hqk]

/-- C9: separate_into_n_terms partitions the container entries into those
whose shape equals the target (with their original coefficients) and all
the rest, every entry landing in exactly one half. -/
theorem claim_C9_separate_into_n_terms_partition :
    ∀ {K V S : Type} [DecidableEq K] [CoeffLike V] [DecidableEq S]
      (shape : K → S) (op : OperatorMap K V) (target : S) (k : K) (v : V),
      (OperatorMap.lookup (OperatorMap.separateIntoNTerms shape op target).1 k
        = if shape k = target then OperatorMap.lookup op k else none)
      ∧ (OperatorMap.lookup (OperatorMap.separateIntoNTerms shape op target).2 k
        = if shape k = target then none else OperatorMap.lookup op k)
      ∧ ((k, v) ∈ (OperatorMap.separateIntoNTerms shape op target).1
          ↔ (k, v) ∈ op ∧ shape k = target)
      ∧ ((k, v) ∈ (OperatorMap.separateIntoNTerms shape op target).2
          ↔ (k, v) ∈ op ∧ shape k ≠ target) := by
  intro K V S instK instV instS shape op target k v
  refine ⟨?_, ?_, ?_, ?_⟩
  · unfold OperatorMap.separateIntoNTerms
    rw [lookup_filterKey op (fun a => decide (shape a = target)) k]
    by_cases h : shape k = target <;> simp [h]
  · unfold OperatorMap.separateIntoNTerms
    rw [lookup_filterKey op (fun a => decide (shape a ≠ target)) k]
    by_cases h : shape k = target <;> simp [h]
  · unfold OperatorMap.separateIntoNTerms
    rw [List.mem_filter]
    simp
  · unfold OperatorMap.separateIntoNTerms
    rw [List.mem_filter]
    simp

/-- C8: for every numeric threshold t, truncate retains exactly the
entries whose coefficient is symbolic or whose literal resolved magnitude
exceeds t — rendered without square roots as t < 0 or t^2 below the
squared modulus — keeping the original coefficients; an open system
truncates its system and noise halves independently, capacity
untouched. -/
theorem claim_C8_truncate_retention :
    (∀ {K : Type} (op : OperatorMap K CalculatorComplex) (t : ℚ)
      (k : K) (v : CalculatorComplex),
      ((k, v) ∈ OperatorMap.truncate op t
        ↔ (k, v) ∈ op
          ∧ (v.isSymbolic = true
            ∨ ∃ a b : ℚ, v.re = .float a ∧ v.im = .float b
              ∧ (t < 0 ∨ t * t < a * a + b * b))))
    ∧ (∀ (s : BosonLindbladOpenSystem) (t : ℚ),
      (s.truncate t).system = OperatorMap.truncate s.system t
      ∧ (s.truncate t).noise = OperatorMap.truncate s.noise t
      ∧ (s.truncate t).capacity = s.capacity) := by
  constructor
  · intro K op t k v
    unfold OperatorMap.truncate
    rw [List.mem_filter]
    constructor
    · rintro ⟨hm, hk⟩
      refine ⟨hm, ?_⟩
      cases hre : v.re with
      | float a =>
        cases him : v.im with
        | float b =>
          right
          refine ⟨a, b, rfl, rfl, ?_⟩
          unfold truncKeep at hk
          rw [hre, him] at hk
          simpa using hk
        | symb sb =>
          left
          simp [CalculatorComplex.isSymbolic, him, CalculatorFloat.isSymbolic]
      | symb sa =>
        left
        simp [CalculatorComplex.isSymbolic, hre, CalculatorFloat.isSymbolic]
    · rintro ⟨hm, hcond⟩
      refine ⟨hm, ?_⟩
      unfold truncKeep
      rcases hcond with hs | ⟨a, b, hre, him, hlt⟩
      · unfold CalculatorComplex.isSymbolic at hs
        cases hre : v.re with
        | float a =>
          cases him : v.im with
          | float b =>
            rw [hre, him] at hs
            simp [CalculatorFloat.isSymbolic] at hs
          | symb sb => rfl
        | symb sa => cases v.im <;> rfl
      · rw [hre, him]
        simpa using hlt
  · intro s t
    exact ⟨rfl, rfl, rfl⟩

theorem foldr_max_append (xs ys : List ℕ) :
    (xs ++ ys).foldr max 0 = max (xs.foldr max 0) (ys.foldr max 0) := by
  induction xs with
  | nil => simp
  | cons x xs ih =>
    simp only [List.cons_append, List.foldr_cons, ih, Nat.max_assoc]

theorem foldr_max_flatMap {α : Type} (l : List α) (g : α → List ℕ) :
    ((l.flatMap g).map (· + 1)).foldr max 0
      = (l.map (fun a => ((g a).map (· + 1)).foldr max 0)).foldr max 0 := by
  induction l with
  | nil => simp
  | cons a as ih =>
    simp only [List.flatMap_cons, List.map_append, List.map_cons,
      List.foldr_cons, foldr_max_append, ih]

theorem foldr_max_map_succ (l : List ℕ) (h : l ≠ []) :
    (l.map (· + 1)).foldr max 0 = l.foldr max 0 + 1 := by
  induction l with
  | nil => exact absurd rfl h
  | cons a as ih =>
    cases as with
    | nil => simp
    | cons b bs =>
      rw [List.map_cons, List.foldr_cons, List.foldr_cons,
        ih (by simp)]
      exact Nat.succ_max_succ a _

theorem bosonStep_capacity (s : BosonSystem) (k : BosonProduct)
    (v : CalculatorComplex) :
    (BosonSystem.addOperatorProduct s k v).2.capacity = s.capacity := by
  obtain ⟨cap, op⟩ := s
  unfold BosonSystem.addOperatorProduct SystemOf.addOperatorProduct
  cases cap with
  | none => rfl
  | some n =>
    by_cases h : k.currentNumberModes ≤ n <;> simp [h]

theorem afterAdds_capacity (adds : List (BosonProduct × CalculatorComplex)) :
    (BosonSystem.afterAdds adds).capacity = none := by
  unfold BosonSystem.afterAdds
  have hstep : ∀ (adds : List (BosonProduct × CalculatorComplex))
      (s : BosonSystem), s.capacity = none →
      (adds.foldl (fun s kv => (BosonSystem.addOperatorProduct s kv.1 kv.2).2)
        s).capacity = none := by
    intro adds
    induction adds with
    | nil => exact fun s h => h
    | cons kv rest ih =>
      intro s h
      exact ih _ ((bosonStep_capacity s kv.1 kv.2).trans h)
  exact hstep adds (SystemOf.new none) rfl

theorem openStep_capacity (s : BosonLindbladOpenSystem) (a : OpenIns) :
    (match a with
      | .sysIns k v => (s.systemAddOperatorProduct k v).2
      | .noiseIns k v => (s.noiseAddOperatorProduct k v).2).capacity
      = s.capacity := by
  obtain ⟨cap, sysop, noiseop⟩ := s
  cases a with
  | sysIns k v =>
    unfold BosonLindbladOpenSystem.systemAddOperatorProduct
    cases cap with
    | none => rfl
    | some n => by_cases h : k.currentNumberModes ≤ n <;> simp [h]
  | noiseIns k v =>
    unfold BosonLindbladOpenSystem.noiseAddOperatorProduct
    cases cap with
    | none => rfl
    | some n => by_cases h : BosonLindbladOpenSystem.pairCnm k ≤ n <;> simp [h]

theorem openAfterAdds_capacity (adds : List OpenIns) :
    (BosonLindbladOpenSystem.afterAdds adds).capacity = none := by
  unfold BosonLindbladOpenSystem.afterAdds
  have hstep : ∀ (adds : List OpenIns) (s : BosonLindbladOpenSystem),
      s.capacity = none →
      (adds.foldl (fun s a =>
        match a with
        | .sysIns k v => (s.systemAddOperatorProduct k v).2
        | .noiseIns k v => (s.noiseAddOperatorProduct k v).2) s).capacity
        = none := by
    intro adds
    induction adds with
    | nil => exact fun s h => h
    | cons a rest ih =>
      intro s h
      exact ih _ ((openStep_capacity s a).trans h)
  exact hstep adds (BosonLindbladOpenSystem.new none) rfl

theorem bosonSystem_current_eq_indices (s : BosonSystem) :
    SystemOf.currentNumberModes BosonProduct.currentNumberModes s
      = ((BosonSystem.allIndices s).map (· + 1)).foldr max 0 :=
  (foldr_max_flatMap (OperatorMap.keys s.operator) BosonProduct.indices).symm

theorem openSystem_current_eq_indices (s : BosonLindbladOpenSystem) :
    s.currentNumberModes
      = ((BosonLindbladOpenSystem.allIndices s).map (· + 1)).foldr max 0 := by
  unfold BosonLindbladOpenSystem.currentNumberModes
    BosonLindbladOpenSystem.allIndices
  rw [List.map_append, foldr_max_append]
  congr 1
  · exact (foldr_max_flatMap (OperatorMap.keys s.system) BosonProduct.indices).symm
  · rw [foldr_max_flatMap (OperatorMap.keys s.noise)
      (fun k => k.1.indices ++ k.2.indices)]
    apply congrArg (List.foldr max 0)
    apply List.map_congr_left
    intro k _
    unfold BosonLindbladOpenSystem.pairCnm BosonProduct.currentNumberModes
    rw [List.map_append, foldr_max_append]

/-- C10: with no declared capacity, number_modes always equals
current_number_modes — 0 while empty and the highest referenced mode index
plus one after any sequence of insertions — and the None-constructed
System is the default System; likewise for the open system and its two
halves. -/
theorem claim_C10_none_capacity_number_modes :
    (∀ adds : List (BosonProduct × CalculatorComplex),
      SystemOf.numberModes BosonProduct.currentNumberModes
          (BosonSystem.afterAdds adds)
        = SystemOf.currentNumberModes BosonProduct.currentNumberModes
          (BosonSystem.afterAdds adds)
      ∧ SystemOf.currentNumberModes BosonProduct.currentNumberModes
          (BosonSystem.afterAdds adds)
        = ((BosonSystem.allIndices (BosonSystem.afterAdds adds)).map (· + 1)).foldr max 0
      ∧ (BosonSystem.allIndices (BosonSystem.afterAdds adds) ≠ [] →
        SystemOf.currentNumberModes BosonProduct.currentNumberModes
            (BosonSystem.afterAdds adds)
          = (BosonSystem.allIndices (BosonSystem.afterAdds adds)).foldr max 0 + 1))
    ∧ SystemOf.numberModes BosonProduct.currentNumberModes
        ((SystemOf.new none) : BosonSystem) = 0
    ∧ ((SystemOf.new none) : BosonSystem) = SystemOf.defaultSystem
    ∧ (∀ adds : List OpenIns,
      (BosonLindbladOpenSystem.afterAdds adds).numberModes
        = (BosonLindbladOpenSystem.afterAdds adds).currentNumberModes
      ∧ (BosonLindbladOpenSystem.afterAdds adds).currentNumberModes
        = (((BosonLindbladOpenSystem.afterAdds adds).allIndices).map (· + 1)).foldr max 0)
    ∧ (BosonLindbladOpenSystem.new none).numberModes = 0 := by
  refine ⟨?_, rfl, rfl, ?_, rfl⟩
  · intro adds
    refine ⟨?_, bosonSystem_current_eq_indices _, ?_⟩
    · unfold SystemOf.numberModes
      rw [afterAdds_capacity adds]
    · intro hne
      rw [bosonSystem_current_eq_indices, foldr_max_map_succ _ hne]
  · intro adds
    refine ⟨?_, openSystem_current_eq_indices _⟩
    unfold BosonLindbladOpenSystem.numberModes
    rw [openAfterAdds_capacity adds]

/-- Witness for C10's conditional clause at a concrete insertion sequence:
after inserting c0a0, the system holds referenced index 0, and both counts
are 1. -/
theorem claim_C10_none_capacity_number_modes_witness :
    BosonSystem.allIndices
        (BosonSystem.afterAdds [(⟨[0], [0]⟩, CalculatorComplex.ofRat 1 0)]) ≠ []
    ∧ SystemOf.currentNumberModes BosonProduct.currentNumberModes
        (BosonSystem.afterAdds [(⟨[0], [0]⟩, CalculatorComplex.ofRat 1 0)])
      = (BosonSystem.allIndices
          (BosonSystem.afterAdds [(⟨[0], [0]⟩, CalculatorComplex.ofRat 1 0)])).foldr
          max 0 + 1 := by
  have hne : BosonSystem.allIndices
      (BosonSystem.afterAdds [(⟨[0], [0]⟩, CalculatorComplex.ofRat 1 0)]) ≠ [] := by
    simp [BosonSystem.afterAdds, BosonSystem.allIndices, SystemOf.new,
      BosonSystem.addOperatorProduct, SystemOf.addOperatorProduct,
      OperatorMap.addOperatorProduct, OperatorMap.set, OperatorMap.get,
      OperatorMap.lookup, OperatorMap.remove, OperatorMap.keys,
      OperatorMap.empty, CoeffLike.isZero, CoeffLike.add, CoeffLike.zero,
      CalculatorComplex.add, CalculatorComplex.isZero, CalculatorComplex.zero,
      CalculatorComplex.ofRat, CalculatorFloat.add, CalculatorFloat.isZero,
      BosonProduct.indices]
  exact ⟨hne,
    ((claim_C10_none_capacity_number_modes.1
      [(⟨[0], [0]⟩, CalculatorComplex.ofRat 1 0)]).2.2) hne⟩

theorem spinGo_ok (terms : List (String × CalculatorFloat)) :
    ∀ acc, (∀ kv ∈ terms, ∃ p, parsePauliChars kv.1.toList = .ok p) →
      ∃ sys, fromJsonStruqture2SpinGo terms acc = .ok sys := by
  induction terms with
  | nil => exact fun acc _ => ⟨acc, rfl⟩
  | cons kv rest ih =>
    intro acc hall
    obtain ⟨key, val⟩ := kv
    obtain ⟨p, hp⟩ := hall (key, val) (List.mem_cons_self _ _)
    unfold fromJsonStruqture2SpinGo
    rw [hp]
    exact ih _ (fun kv2 hm => hall kv2 (List.mem_cons_of_mem _ hm))

theorem spinGo_error (terms : List (String × CalculatorFloat)) :
    ∀ acc, (∃ kv ∈ terms, ∃ e, parsePauliChars kv.1.toList = .error e) →
      ∃ e, fromJsonStruqture2SpinGo terms acc = .error e := by
  induction terms with
  | nil =>
    intro acc hbad
    obtain ⟨kv, hm, _⟩ := hbad
    simp at hm
  | cons kv rest ih =>
    intro acc hbad
    obtain ⟨key, val⟩ := kv
    cases hparse : parsePauliChars key.toList with
    | error e =>
      refine ⟨"Struqture 2.x PauliProduct cannot be converted to struqture 1.x: " ++ e, ?_⟩
      unfold fromJsonStruqture2SpinGo
      rw [hparse]
    | ok p =>
      obtain ⟨kv2, hm, e, he⟩ := hbad
      rcases List.mem_cons.mp hm with h1 | h1
      · rw [h1] at he
        rw [he] at hparse
        cases hparse
      · have : ∃ e, fromJsonStruqture2SpinGo rest
            (SystemOf.set PauliProduct.currentNumberSpins acc p val).2 = .error e :=
          ih _ ⟨kv2, h1, e, he⟩
        obtain ⟨e2, he2⟩ := this
        refine ⟨e2, ?_⟩
        unfold fromJsonStruqture2SpinGo
        rw [hparse]
        exact he2

theorem pmGo_ok (terms : List ((String × String) × CalculatorComplex)) :
    ∀ acc, (∀ kv ∈ terms, (∃ p, parsePlusMinusChars kv.1.1.toList = .ok p)
        ∧ (∃ p, parsePlusMinusChars kv.1.2.toList = .ok p)) →
      ∃ op, fromJsonStruqture2PMNoiseGo terms acc = .ok op := by
  induction terms with
  | nil => exact fun acc _ => ⟨acc, rfl⟩
  | cons kv rest ih =>
    intro acc hall
    obtain ⟨⟨kl, kr⟩, val⟩ := kv
    obtain ⟨⟨pl, hpl⟩, ⟨pr, hpr⟩⟩ := hall ((kl, kr), val) (List.mem_cons_self _ _)
    unfold fromJsonStruqture2PMNoiseGo
    rw [hpl, hpr]
    exact ih _ (fun kv2 hm => hall kv2 (List.mem_cons_of_mem _ hm))

theorem pmGo_error (terms : List ((String × String) × CalculatorComplex)) :
    ∀ acc, (∃ kv ∈ terms, (∃ e, parsePlusMinusChars kv.1.1.toList = .error e)
        ∨ (∃ e, parsePlusMinusChars kv.1.2.toList = .error e)) →
      ∃ e, fromJsonStruqture2PMNoiseGo terms acc = .error e := by
  induction terms with
  | nil =>
    intro acc hbad
    obtain ⟨kv, hm, _⟩ := hbad
    simp at hm
  | cons kv rest ih =>
    intro acc hbad
    obtain ⟨⟨kl, kr⟩, val⟩ := kv
    cases hpl : parsePlusMinusChars kl.toList with
    | error e =>
      refine ⟨"Struqture 2.x PlusMinusProduct cannot be converted to struqture 1.x: " ++ e, ?_⟩
      unfold fromJsonStruqture2PMNoiseGo
      rw [hpl]
    | ok pl =>
      cases hpr : parsePlusMinusChars kr.toList with
      | error e =>
        refine ⟨"Struqture 2.x PlusMinusProduct cannot be converted to struqture 1.x: " ++ e, ?_⟩
        unfold fromJsonStruqture2PMNoiseGo
        rw [hpl, hpr]
      | ok pr =>
        obtain ⟨kv2, hm, hor⟩ := hbad
        rcases List.mem_cons.mp hm with h1 | h1
        · exfalso
          rw [h1] at hor
          rcases hor with ⟨e, he⟩ | ⟨e, he⟩
          · rw [he] at hpl
            cases hpl
          · rw [he] at hpr
            cases hpr
        · obtain ⟨e2, he2⟩ := ih _ ⟨kv2, h1, hor⟩
          refine ⟨e2, ?_⟩
          unfold fromJsonStruqture2PMNoiseGo
          rw [hpl, hpr]
          exact he2

/-- C3: the struqture-2 import is all-or-nothing: a document that does not
deserialize, or any term key unparseable by the current generation's
grammar, aborts the whole import with a descriptive error (the error
branch carries no container); re-inserting a parsed term into the freshly
constructed None-capacity container can itself never fail, so the
source's discarded set Result hides no failure. -/
theorem claim_C3_struqture2_import_all_or_nothing :
    (∀ doc : Struqture2Doc String CalculatorFloat,
      (doc = none → ∃ e, fromJsonStruqture2Spin doc = .error e)
      ∧ (∀ terms, doc = some terms →
        ((∃ kv ∈ terms, ∃ e, parsePauliChars kv.1.toList = .error e) →
          ∃ e, fromJsonStruqture2Spin doc = .error e)
        ∧ ((∀ kv ∈ terms, ∃ p, parsePauliChars kv.1.toList = .ok p) →
          ∃ sys, fromJsonStruqture2Spin doc = .ok sys)))
    ∧ (∀ (acc : SystemOf PauliProduct CalculatorFloat) (k : PauliProduct)
        (v : CalculatorFloat), acc.capacity = none →
        (SystemOf.set PauliProduct.currentNumberSpins acc k v).1 = .ok ())
    ∧ (∀ doc : Struqture2Doc (String × String) CalculatorComplex,
      (doc = none → ∃ e, fromJsonStruqture2PMNoise doc = .error e)
      ∧ (∀ terms, doc = some terms →
        ((∃ kv ∈ terms, (∃ e, parsePlusMinusChars kv.1.1.toList = .error e)
            ∨ (∃ e, parsePlusMinusChars kv.1.2.toList = .error e)) →
          ∃ e, fromJsonStruqture2PMNoise doc = .error e)
        ∧ ((∀ kv ∈ terms, (∃ p, parsePlusMinusChars kv.1.1.toList = .ok p)
            ∧ (∃ p, parsePlusMinusChars kv.1.2.toList = .ok p)) →
          ∃ op, fromJsonStruqture2PMNoise doc = .ok op))) := by
  refine ⟨?_, ?_, ?_⟩
  · intro doc
    constructor
    · intro hn
      subst hn
      exact ⟨_, rfl⟩
    · intro terms hs
      subst hs
      exact ⟨spinGo_error terms _, spinGo_ok terms _⟩
  · intro acc k v hcap
    obtain ⟨cap, op⟩ := acc
    simp only at hcap
    subst hcap
    rfl
  · intro doc
    constructor
    · intro hn
      subst hn
      exact ⟨_, rfl⟩
    · intro terms hs
      subst hs
      exact ⟨pmGo_error terms _, pmGo_ok terms _⟩

/-- Witness for C3: a failed deserialization errors; a term keyed "0J"
(unparseable) aborts with an error; a well-formed single-term document
keyed "0Z" imports; set on the fresh None-capacity container reports
success. -/
theorem claim_C3_struqture2_import_all_or_nothing_witness :
    (∃ e, fromJsonStruqture2Spin none = .error e)
    ∧ (∃ e, fromJsonStruqture2Spin
        (some [("0J", CalculatorFloat.float 1)]) = .error e)
    ∧ (∃ sys, fromJsonStruqture2Spin
        (some [("0Z", CalculatorFloat.float 1)]) = .ok sys)
    ∧ (SystemOf.set PauliProduct.currentNumberSpins (SystemOf.new none)
        ⟨[(0, .Z)]⟩ (CalculatorFloat.float 1)).1 = .ok ()
    ∧ (∃ e, fromJsonStruqture2PMNoise none = .error e) := by
  refine ⟨?_, ?_, ?_, ?_, ?_⟩
  · exact (claim_C3_struqture2_import_all_or_nothing.1 none).1 rfl
  · exact ((claim_C3_struqture2_import_all_or_nothing.1
      (some [("0J", CalculatorFloat.float 1)])).2
      [("0J", CalculatorFloat.float 1)] rfl).1
      ⟨("0J", CalculatorFloat.float 1), List.mem_cons_self _ _,
        "Input cannot be parsed as a PauliProduct",
        by simp [parsePauliChars, parseSiteRun, parseNat, takeDigits,
          digitsVal, charDigit, PauliSymbol.ofChar]⟩
  · exact ((claim_C3_struqture2_import_all_or_nothing.1
      (some [("0Z", CalculatorFloat.float 1)])).2
      [("0Z", CalculatorFloat.float 1)] rfl).2
      (by
        intro kv hm
        rw [List.mem_singleton] at hm
        rw [hm]
        exact ⟨⟨[(0, .Z)]⟩,
          by simp [parsePauliChars, parseSiteRun, parseNat, takeDigits,
            digitsVal, charDigit, PauliSymbol.ofChar,
            PauliProduct.canonical, chainLtB]⟩)
  · exact claim_C3_struqture2_import_all_or_nothing.2.1
      (SystemOf.new none) ⟨[(0, .Z)]⟩ (CalculatorFloat.float 1) rfl
  · exact (claim_C3_struqture2_import_all_or_nothing.2.2 none).1 rfl

end Struqture
